import Mathlib

/-!
Verification of the ntfs-reader library: a shallow embedding of its MFT
parser, data-run decoder, journal bookkeeping and path caches, with
theorems about the properties the specification states.

Bytes are modelled as `List Nat` (each entry an octet value); machine
integers are `Nat`/`Int` with explicit wrap-around where the source
relies on it.
-/

namespace NtfsReader

/-! ## Byte-level helpers -/

/-- Read one byte of a buffer (out-of-range reads never happen on the
control paths the source takes; `0` is a dummy default). -/
def byteAt (d : List Nat) (i : Nat) : Nat := d.getD i 0

/-- Little-endian value of `n` bytes starting at offset `off`. -/
def readLE (d : List Nat) (off : Nat) : Nat → Nat
  | 0 => 0
  | n + 1 => byteAt d off + 256 * readLE d (off + 1) n

/-- Sign extension of an `nbytes`-byte little-endian value, as the source
computes with `(raw << empty_bits) >> empty_bits` on an `i64`. -/
def signExtend (nbytes v : Nat) : Int :=
  if v < 2 ^ (8 * nbytes - 1) then (v : Int) else (v : Int) - 2 ^ (8 * nbytes)

/-! ## Constants from `api.rs` -/

def SECTOR_SIZE : Nat := 512
def MFT_RECORD : Nat := 0
def ROOT_RECORD : Nat := 5
def FIRST_NORMAL_RECORD : Nat := 24
def FILE_RECORD_SIGNATURE : List Nat := [0x46, 0x49, 0x4C, 0x45]
def EPOCH_DIFFERENCE : Nat := 116444736000000000

/-! ## `ntfs_to_unix_time` (`api.rs`)

The source computes `(src - EPOCH_DIFFERENCE) as i128` on a `u64` and
then calls `OffsetDateTime::from_unix_timestamp_nanos(unix * 100).unwrap()`.
The `u64` subtraction wraps in a release build (and panics outright in a
debug build); the `unwrap` panics whenever the scaled value falls outside
the range the `time` crate supports. Returning `none` models a panic. -/

/-- Wrapping `u64` subtraction (`a` and `b` are assumed below `2 ^ 64`). -/
def u64WrappingSub (a b : Nat) : Nat := (a + 2 ^ 64 - b) % 2 ^ 64

/-- Smallest unix-nanosecond timestamp `OffsetDateTime` supports
(-9999-01-01T00:00:00Z, proleptic Gregorian). Modelled from the `time`
crate's documented range. -/
def odtMinNanos : Int := -377705116800000000000

/-- Largest unix-nanosecond timestamp `OffsetDateTime` supports
(9999-12-31T23:59:59.999999999Z). Modelled from the `time` crate's
documented range. -/
def odtMaxNanos : Int := 253402300799999999999

/-- Modelled from the `time` crate: `OffsetDateTime::from_unix_timestamp_nanos`
succeeds exactly on its supported range. -/
def fromUnixTimestampNanos (n : Int) : Option Int :=
  if odtMinNanos ≤ n ∧ n ≤ odtMaxNanos then some n else none

/-- `ntfs_to_unix_time` from `api.rs`; `none` models a panic of the
original. -/
def ntfs_to_unix_time (src : Nat) : Option Int :=
  let unix : Int := (u64WrappingSub src EPOCH_DIFFERENCE : Nat)
  fromUnixTimestampNanos (unix * 100)

/-! ## Error model (`errors.rs`, narrowed to the kinds the claims touch) -/

inductive NtfsReaderError
  | InvalidDataRun (details : String)
  | MissingMftAttribute (name : String)
  | InvalidMftRecord (position : Nat)
  | CorruptMftRecord (number : Nat)
deriving DecidableEq, Repr

/-! ## Attribute view (`attribute.rs`) -/

/-- One decoded run of a non-resident attribute (`attribute.rs`). -/
inductive DataRun
  | Data (lcn length : Nat)
  | Sparse (length : Nat)
deriving DecidableEq, Repr

/-- Byte length of a run, for summing. -/
def DataRun.runLength : DataRun → Nat
  | .Data _ l => l
  | .Sparse l => l

/-- `NtfsAttribute`: the raw slice plus the validated declared length. -/
structure NtfsAttribute where
  data : List Nat
  length : Nat
deriving DecidableEq, Repr

/-- `NtfsAttribute::new`: require a complete 16-byte header and a declared
length in `(0, data.len()]`. -/
def NtfsAttribute.new (data : List Nat) : Option NtfsAttribute :=
  if data.length < 16 then none
  else
    let length := readLE data 4 4
    if length = 0 ∨ length > data.length then none
    else some ⟨data, length⟩

/-- `self.data()`: the attribute truncated to its declared length. -/
def NtfsAttribute.slice (a : NtfsAttribute) : List Nat := a.data.take a.length

/-- `type_id` field of the attribute header (`u32` at offset 0). -/
def NtfsAttribute.type_id (a : NtfsAttribute) : Nat := readLE a.data 0 4

/-- `is_non_resident` field (`u8` at offset 8). -/
def NtfsAttribute.is_non_resident (a : NtfsAttribute) : Nat := byteAt a.data 8

/-- `nonresident_header()` succeeds: non-resident flag set and the
attribute is at least the 64-byte non-resident header. -/
def NtfsAttribute.hasNonresidentHeader (a : NtfsAttribute) : Prop :=
  a.is_non_resident ≠ 0 ∧ 64 ≤ a.length

instance (a : NtfsAttribute) : Decidable a.hasNonresidentHeader := by
  unfold NtfsAttribute.hasNonresidentHeader; infer_instance

/-- `data_runs_offset` field of the non-resident header (`u16` at 32). -/
def NtfsAttribute.data_runs_offset (a : NtfsAttribute) : Nat := readLE a.data 32 2

/-- `data_size` field of the non-resident header (`u64` at 48). -/
def NtfsAttribute.data_size (a : NtfsAttribute) : Nat := readLE a.data 48 8

/-- A filesystem path, as a list of components, each a list of UTF-16
code units (`PathBuf` in the source; `PathBuf::new()` is `[]`). -/
abbrev Path := List (List Nat)

/-- Volume parameters (`volume.rs`); only the fields the claims use. -/
structure Volume where
  path : Path := []
  cluster_size : Nat := 0
  file_record_size : Nat := 0
  mft_position : Nat := 0

/-- Outcome of the header-and-fields part of one iteration of the
run-decoding loop. -/
inductive RunStep
  | stop
  | fail (e : NtfsReaderError)
  | sparse (count cursor' : Nat)
  | data (count : Nat) (off : Int) (cursor' : Nat)
deriving DecidableEq, Repr

/-- Body of the loop of `get_nonresident_data_runs`: the checks, field
reads and arithmetic of one iteration, in source order. `prev` is
`prev_lcn` (an `i128`) and `total` is `total_run_length` (a `u64`). -/
def dataRunStep (rd : List Nat) (cs cursor total : Nat) : RunStep :=
  if cursor ≥ rd.length then .fail (.InvalidDataRun "unterminated data run sequence")
  else if byteAt rd cursor = 0 then .stop
  else
    let descriptor := byteAt rd cursor
    let clusterCountB := descriptor % 16
    let clusterOffsetB := descriptor / 16 % 16
    if clusterCountB = 0 ∨ clusterCountB > 8 then
      .fail (.InvalidDataRun "invalid cluster count field")
    else if clusterOffsetB > 8 then
      .fail (.InvalidDataRun "invalid cluster offset field")
    else if cursor + 1 + clusterCountB > rd.length then
      .fail (.InvalidDataRun "unexpected end of run-length data")
    else
      let clusterCount := readLE rd (cursor + 1) clusterCountB
      if clusterCount = 0 then .fail (.InvalidDataRun "cluster count is zero")
      else if clusterCount * cs ≥ 2 ^ 64 then
        .fail (.InvalidDataRun "run length overflow")
      else if total + clusterCount * cs ≥ 2 ^ 64 then
        .fail (.InvalidDataRun "total run length overflow")
      else
        let cursor2 := cursor + 1 + clusterCountB
        if clusterOffsetB = 0 then .sparse clusterCount cursor2
        else if cursor2 + clusterOffsetB > rd.length then
          .fail (.InvalidDataRun "unexpected end of run-offset data")
        else
          let clusterOffset := signExtend clusterOffsetB (readLE rd cursor2 clusterOffsetB)
          .data clusterCount clusterOffset (cursor2 + clusterOffsetB)

/-- The `prev_lcn` update of one data run: `checked_mul` of the relative
offset by the cluster size, `checked_add` onto `prev_lcn` (both on
`i128`), and the rejection of a negative result. -/
def advanceLcn (prev off : Int) (cs : Nat) : Except NtfsReaderError Int :=
  let delta := off * (cs : Int)
  if delta < -(2 ^ 127) ∨ 2 ^ 127 ≤ delta then
    .error (.InvalidDataRun "relative offset overflow")
  else
    let start := prev + delta
    if start < -(2 ^ 127) ∨ 2 ^ 127 ≤ start then
      .error (.InvalidDataRun "relative offset overflow")
    else if start < 0 then .error (.InvalidDataRun "relative offset underflow")
    else .ok start

/-- Loop of `get_nonresident_data_runs`, fuelled (the source loop
advances `cursor` by at least two bytes per iteration, so the fuel
passed at top level can never run out). -/
def dataRunLoopF (rd : List Nat) (cs : Nat) :
    Nat → Nat → Int → Nat → List DataRun → Except NtfsReaderError (Nat × List DataRun)
  | 0, _, _, _, _ => .error (.InvalidDataRun "fuel exhausted")
  | fuel + 1, cursor, prev, total, out =>
    match dataRunStep rd cs cursor total with
    | .stop => .ok (total, out)
    | .fail e => .error e
    | .sparse c cursor' =>
      dataRunLoopF rd cs fuel cursor' prev (total + c * cs) (out ++ [DataRun.Sparse (c * cs)])
    | .data c o cursor' =>
      match advanceLcn prev o cs with
      | .error e => .error e
      | .ok start =>
        dataRunLoopF rd cs fuel cursor' start (total + c * cs)
          (out ++ [DataRun.Data (start.toNat % 2 ^ 64) (c * cs)])

/-- `get_nonresident_data_runs` (`attribute.rs`). -/
def get_nonresident_data_runs (a : NtfsAttribute) (volume : Volume) :
    Except NtfsReaderError (Nat × List DataRun) :=
  if ¬ a.hasNonresidentHeader then .error (.InvalidDataRun "attribute is resident")
  else
    let totalSize := a.data_size
    if totalSize = 0 then .ok (totalSize, [])
    else if a.data_runs_offset > a.length then
      .error (.InvalidDataRun "data runs offset outside attribute")
    else
      let runsData := a.slice.drop a.data_runs_offset
      match dataRunLoopF runsData volume.cluster_size (runsData.length + 1) 0 0 0 [] with
      | .error e => .error e
      | .ok (totalRunLength, out) =>
        if totalSize > 0 ∧ out = [] then
          .error (.InvalidDataRun "attribute has size but no runs")
        else if totalRunLength < totalSize then
          .error (.InvalidDataRun "data runs shorter than declared size")
        else .ok (totalSize, out)

/-! ### Decoded fields of a run sequence

To state what "the sign-extended relative cluster offsets decoded so far"
are, the raw fields of each run header are extracted by a parser that
follows exactly the cursor movement and rejection tests of the loop
above, recording `(cluster_count, sign-extended offset?)` instead of
accumulating positions. -/

/-- Raw decoded fields of one run: the cluster count and, unless the run
is sparse, the sign-extended relative cluster offset. -/
structure RawRun where
  count : Nat
  off : Option Int
deriving DecidableEq, Repr

/-- Raw-field companion of `dataRunLoopF`: the same iteration body, but
recording the decoded `(cluster_count, offset?)` fields instead of
accumulated positions. -/
def rawRunLoopF (rd : List Nat) (cs : Nat) :
    Nat → Nat → Int → Nat → List RawRun → Option (List RawRun)
  | 0, _, _, _, _ => none
  | fuel + 1, cursor, prev, total, out =>
    match dataRunStep rd cs cursor total with
    | .stop => some out
    | .fail _ => none
    | .sparse c cursor' =>
      rawRunLoopF rd cs fuel cursor' prev (total + c * cs) (out ++ [⟨c, none⟩])
    | .data c o cursor' =>
      match advanceLcn prev o cs with
      | .error _ => none
      | .ok start =>
        rawRunLoopF rd cs fuel cursor' start (total + c * cs) (out ++ [⟨c, some o⟩])

/-- Raw decoded fields of the run sequence of a non-resident attribute. -/
def rawRuns (a : NtfsAttribute) (volume : Volume) : Option (List RawRun) :=
  let runsData := a.slice.drop a.data_runs_offset
  rawRunLoopF runsData volume.cluster_size (runsData.length + 1) 0 0 0 []

/-- Sum of the sign-extended relative cluster offsets of the first `j`
decoded runs (sparse runs contribute nothing). -/
def offPrefixSum (raw : List RawRun) (j : Nat) : Int :=
  ((raw.take j).filterMap RawRun.off).sum

/-- The relation claim C1 is about, corrected to what the code computes:
run `j` is sparse exactly when its raw fields carry no offset, and a
`Data` run's `lcn` is `cluster_size` times the running offset sum -
i.e. an absolute starting *byte* - truncated to 64 bits. -/
def runsMatchRaw (cs : Nat) (runs : List DataRun) (raw : List RawRun) : Prop :=
  runs.length = raw.length ∧
  ∀ j, j < raw.length →
    (∀ c, raw.get? j = some ⟨c, none⟩ → runs.get? j = some (.Sparse (c * cs))) ∧
    (∀ c o, raw.get? j = some ⟨c, some o⟩ →
      0 ≤ (cs : Int) * offPrefixSum raw (j + 1) ∧
      runs.get? j = some (.Data (((cs : Int) * offPrefixSum raw (j + 1)).toNat % 2 ^ 64) (c * cs)))

/-! ### A concrete non-resident attribute

Type `Data` (0x80), declared length 68, non-resident, `data_runs_offset`
64, `data_size` 2, and a single run `[0x11, 0x01, 0x03, 0x00]`: one
cluster starting at relative cluster offset 3. -/

def exAttrData : List Nat :=
  [0x80, 0, 0, 0, 68, 0, 0, 0, 1, 0, 0, 0, 0, 0, 0, 0] ++ List.replicate 16 0 ++
  [64, 0, 0, 0, 0, 0, 0, 0] ++ List.replicate 8 0 ++ [2, 0, 0, 0, 0, 0, 0, 0] ++
  List.replicate 8 0 ++ [0x11, 0x01, 0x03, 0x00]

def exAttr : NtfsAttribute := ⟨exAttrData, 68⟩

/-- A volume with two bytes per cluster. -/
def exVolume : Volume := { cluster_size := 2 }

/-! ## File records (`file.rs`) -/

/-- A file-record view: the record number and its bytes. -/
structure NtfsFile where
  number : Nat
  data : List Nat
deriving DecidableEq, Repr

/-- `NtfsFile::is_valid` (`file.rs`): signature, non-zero USA length,
`used_size` within bounds, USA end within bounds, USA entry count
compatible with the sector count, and `attributes_offset < used_size`.
Field offsets follow the packed `NtfsFileRecordHeader` (42 bytes):
`update_sequence_offset` at 4, `update_sequence_length` at 6,
`attributes_offset` at 20, `flags` at 22, `used_size` at 24. -/
def NtfsFile.is_valid (data : List Nat) : Bool :=
  if data.length < 42 then false
  else if data.take 4 ≠ FILE_RECORD_SIGNATURE then false
  else if readLE data 6 2 = 0 then false
  else if readLE data 24 4 > data.length then false
  else if readLE data 4 2 + readLE data 6 2 * 2 > data.length ∨
      readLE data 6 2 - 1 > data.length / SECTOR_SIZE then false
  else if readLE data 20 2 ≥ readLE data 24 4 then false
  else true

/-- `is_used`: flags bit `0x0001`. -/
def NtfsFile.is_used (f : NtfsFile) : Bool := (readLE f.data 22 2) &&& 1 != 0

/-- `is_directory`: flags bit `0x0002`. -/
def NtfsFile.is_directory (f : NtfsFile) : Bool := (readLE f.data 22 2) &&& 2 != 0

/-! ## The MFT (`mft.rs`) -/

/-- The in-memory MFT: record bytes, allocation bitmap, record count. -/
structure Mft where
  volume : Volume
  data : List Nat
  bitmap : List Nat
  max_record : Nat

/-- `Mft::record_exists`: `number < max_record` and the allocation-bitmap
bit for `number` is set (out-of-range bitmap reads fail closed). -/
def Mft.record_exists (m : Mft) (number : Nat) : Bool :=
  if number ≥ m.max_record then false
  else if number / 8 ≥ m.bitmap.length then false
  else (byteAt m.bitmap (number / 8)) &&& (1 <<< (number % 8)) != 0

/-- `Mft::get_record_data`: the `file_record_size` window of a record. -/
def Mft.get_record_data (m : Mft) (number : Nat) : List Nat :=
  (m.data.drop (number * m.volume.file_record_size)).take m.volume.file_record_size

/-- `Mft::get_record`: bounds check against `max_record`, then
`is_valid`; the allocation bitmap is not consulted. -/
def Mft.get_record (m : Mft) (number : Nat) : Option NtfsFile :=
  if number ≥ m.max_record then none
  else if NtfsFile.is_valid (m.get_record_data number) then
    some ⟨number, m.get_record_data number⟩
  else none

/-- The record numbers `Mft::iterate_files` invokes its callback on:
`FIRST_NORMAL_RECORD ≤ n < max_record` in ascending order, keeping `n`
when `record_exists n`, `get_record n` yields a view and it is in use. -/
def Mft.iterate_files_visited (m : Mft) : List Nat :=
  (List.range' FIRST_NORMAL_RECORD (m.max_record - FIRST_NORMAL_RECORD)).filter
    fun number =>
      m.record_exists number &&
        match m.get_record number with
        | some file => file.is_used
        | none => false

/-! ## The update-sequence fixup (`mft.rs`) -/

/-- Loop of `Mft::fixup_record`, by remaining USA-entry count (the
source iterates `usa_off` over `(usa_start..usa_end).step_by(2)`,
which is `(usa_end - usa_start + 1) / 2` iterations): check that the
sector's trailing two bytes equal the stored USN, then overwrite them
with the USA entry read before the writes. -/
def fixupLoop (number usn0 usn1 : Nat) :
    Nat → List Nat → Nat → Nat → Except NtfsReaderError (List Nat)
  | 0, data, _, _ => .ok data
  | k + 1, data, usa_off, sector_off =>
    if sector_off + 2 > data.length then .ok data
    else if byteAt data sector_off ≠ usn0 ∨ byteAt data (sector_off + 1) ≠ usn1 then
      .error (.CorruptMftRecord number)
    else
      fixupLoop number usn0 usn1 k
        ((data.set sector_off (byteAt data usa_off)).set (sector_off + 1)
          (byteAt data (usa_off + 1)))
        (usa_off + 2) (sector_off + SECTOR_SIZE)

/-- `Mft::fixup_record` (`mft.rs`): header size check, USN position
check, USA bounds check, then the per-sector loop starting at
`SECTOR_SIZE - 2`. -/
def fixup_record (record_number : Nat) (data : List Nat) :
    Except NtfsReaderError (List Nat) :=
  if data.length < 42 then .error (.CorruptMftRecord record_number)
  else
    let usn_start := readLE data 4 2
    if usn_start + 2 > data.length then .error (.CorruptMftRecord record_number)
    else if usn_start + readLE data 6 2 * 2 > data.length then
      .error (.CorruptMftRecord record_number)
    else
      fixupLoop record_number (byteAt data usn_start) (byteAt data (usn_start + 1))
        ((usn_start + readLE data 6 2 * 2 - (usn_start + 2) + 1) / 2) data
        (usn_start + 2) (SECTOR_SIZE - 2)

/-- The `file_record_size` window of record `i` in an MFT byte blob. -/
def recSlice (d : List Nat) (frs i : Nat) : List Nat := (d.drop (i * frs)).take frs

/-- One step of the fixup stage of `Mft::new`: fix record `n` in place
(the updated window is spliced back into the blob). -/
def applyFixup (frs n : Nat) (d : List Nat) : Except NtfsReaderError (List Nat) :=
  match fixup_record n (recSlice d frs n) with
  | .error e => .error e
  | .ok s => .ok (d.take (n * frs) ++ s ++ d.drop (n * frs + frs))

/-- Fix records `0, 1, …, count - 1` in order, aborting on the first
error, as the loop in `Mft::new` does. -/
def fixupUpTo (frs : Nat) : Nat → List Nat → Except NtfsReaderError (List Nat)
  | 0, data => .ok data
  | n + 1, data =>
    match fixupUpTo frs n data with
    | .error e => .error e
    | .ok d => applyFixup frs n d

/-- The fixup stage of `Mft::new`: `max_record = data.len() / file_record_size`
and every record index in `[0, max_record)` is fixed, strictly. -/
def mftNewFixup (data : List Nat) (frs : Nat) : Except NtfsReaderError (List Nat) :=
  fixupUpTo frs (data.length / frs) data

/-! ## File-name attributes (`attribute.rs`, `api.rs`) -/

def ATTR_STANDARD_INFORMATION : Nat := 0x10
def ATTR_ATTRIBUTE_LIST : Nat := 0x20
def ATTR_FILE_NAME : Nat := 0x30
def ATTR_DATA : Nat := 0x80
def ATTR_BITMAP : Nat := 0xB0
def ATTR_END : Nat := 0xFFFFFFFF

/-- A parsed `$FILE_NAME` attribute value. The source copies the name
into a fixed `[u16; 255]` and reads back only `name_length` units; the
model stores just those units. Field offsets in the packed
`NtfsFileNameHeader` (66 bytes): `parent_directory_reference` at 0,
`file_attributes` at 56, `name_length` at 64, namespace at 65. -/
structure NtfsFileName where
  parent_directory_reference : Nat
  file_attributes : Nat
  name_length : Nat
  nameSpace : Nat
  name : List Nat
deriving DecidableEq, Repr

/-- `parent()`: low 48 bits of the parent directory reference. -/
def NtfsFileName.parent (n : NtfsFileName) : Nat :=
  n.parent_directory_reference &&& 0xFFFFFFFFFFFF

/-- `is_reparse_point()`: file-attribute bit `0x400`. -/
def NtfsFileName.is_reparse_point (n : NtfsFileName) : Bool :=
  n.file_attributes &&& 0x400 != 0

/-- `get_resident()`: resident header present (`is_non_resident = 0`,
length at least the 23-byte resident header), then the value slice
bounded by `value_offset + value_length` (`value_length` `u32` at 16,
`value_offset` `u16` at 20). -/
def NtfsAttribute.get_resident (a : NtfsAttribute) : Option (List Nat) :=
  if ¬ (a.is_non_resident = 0 ∧ 23 ≤ a.length) then none
  else
    let start := readLE a.data 20 2
    let value_length := readLE a.data 16 4
    if start + value_length > a.slice.length then none
    else some ((a.slice.drop start).take value_length)

/-- `as_name()` (`attribute.rs`). -/
def NtfsAttribute.as_name (a : NtfsAttribute) : Option NtfsFileName :=
  if a.type_id ≠ ATTR_FILE_NAME then none
  else
    match a.get_resident with
    | none => none
    | some slice =>
      if slice.length < 66 then none
      else
        let name_length := byteAt slice 64
        if 66 + name_length * 2 > slice.length then none
        else if name_length > 255 then none
        else some
          { parent_directory_reference := readLE slice 0 8
            file_attributes := readLE slice 56 4
            name_length := name_length
            nameSpace := byteAt slice 65
            name := (List.range name_length).map fun i => readLE slice (66 + 2 * i) 2 }

/-- Modelled from the spec: the on-disk `NtfsAttributeListEntry` layout
is missing from the source tree (only its uses in `file.rs`/`mft.rs`
remain); the spec lists it among the bit-exact on-disk layouts and the
glossary gives the file-reference format (low 48 bits = record number).
Standard NTFS attribute-list entry: `type_id` `u32` at 0, entry `length`
`u16` at 4, segment reference `u64` at 16, 26 bytes in all. -/
structure NtfsAttributeListEntry where
  type_id : Nat
  length : Nat
  reference : Nat
deriving DecidableEq, Repr

/-- `parse_attribute_list_entry` (`file.rs`): require a complete entry
whose declared length is in `[size_of, remaining]`. -/
def parse_attribute_list_entry (data : List Nat) : Option NtfsAttributeListEntry :=
  if data.length < 26 then none
  else
    let length := readLE data 4 2
    if length < 26 ∨ length > data.length then none
    else some ⟨readLE data 0 4, length, readLE data 16 8 &&& 0xFFFFFFFFFFFF⟩

/-- Attribute walk of `NtfsFile::get_attribute`, fuelled (each
iteration advances `offset` by the attribute length, at least 16). -/
def getAttributeLoop (data : List Nat) (used ty : Nat) : Nat → Nat → Option NtfsAttribute
  | 0, _ => none
  | fuel + 1, offset =>
    if offset ≥ used then none
    else
      match NtfsAttribute.new ((data.drop offset).take (used - offset)) with
      | none => none
      | some attr =>
        if attr.type_id = ATTR_END then none
        else if attr.type_id = ty then some attr
        else if attr.length = 0 then none
        else if offset + attr.length ≤ used then
          getAttributeLoop data used ty fuel (offset + attr.length)
        else none

/-- `NtfsFile::get_attribute` (`file.rs`). -/
def NtfsFile.get_attribute (f : NtfsFile) (ty : Nat) : Option NtfsAttribute :=
  let used := min (readLE f.data 24 4) f.data.length
  getAttributeLoop f.data used ty (used + 1) (readLE f.data 20 2)

/-- Outcome of the inner attribute-list walk of `get_best_file_name`:
return from the whole function with a name, return absent (a failed
`?`), or fall back to the outer loop with the current best. -/
inductive BfnInner
  | retSome (n : NtfsFileName)
  | retNone
  | finish (best : Option NtfsFileName)
deriving DecidableEq, Repr

/-- Inner attribute-list walk of `get_best_file_name` (`file.rs`):
entries are 8-byte aligned; a `FileName` entry resolves the referenced
record through the MFT (a failed lookup aborts the whole function). -/
def bfnListLoop (mft : Mft) (att_data : List Nat) :
    Nat → Nat → Option NtfsFileName → BfnInner
  | 0, _, best => .finish best
  | fuel + 1, att_offset, best =>
    if att_offset ≥ att_data.length then .finish best
    else
      match parse_attribute_list_entry (att_data.drop att_offset) with
      | none => .finish best
      | some entry =>
        if entry.type_id = ATTR_FILE_NAME then
          match mft.get_record entry.reference with
          | none => .retNone
          | some rec =>
            match rec.get_attribute ATTR_FILE_NAME with
            | none => .retNone
            | some att =>
              match att.as_name with
              | some name =>
                if ¬ name.is_reparse_point then
                  if name.nameSpace = 1 ∨ name.nameSpace = 3 then .retSome name
                  else .finish (some name)
                else
                  if entry.length = 0 then .finish best
                  else if att_offset + entry.length ≤ att_data.length then
                    bfnListLoop mft att_data fuel
                      (att_offset + entry.length +
                        ((8 - (att_offset + entry.length) % 8) % 8)) best
                  else .finish best
              | none =>
                if entry.length = 0 then .finish best
                else if att_offset + entry.length ≤ att_data.length then
                  bfnListLoop mft att_data fuel
                    (att_offset + entry.length +
                      ((8 - (att_offset + entry.length) % 8) % 8)) best
                else .finish best
        else
          if entry.length = 0 then .finish best
          else if att_offset + entry.length ≤ att_data.length then
            bfnListLoop mft att_data fuel
              (att_offset + entry.length +
                ((8 - (att_offset + entry.length) % 8) % 8)) best
          else .finish best

/-- Outer attribute walk of `get_best_file_name` (`file.rs`): a
non-reparse `Win32`/`Win32AndDos` name returns immediately; any other
non-reparse name becomes the remembered candidate; a resident
`AttributeList` is walked through the MFT; a non-resident one stops the
walk. -/
def bfnLoop (mft : Mft) (data : List Nat) (used : Nat) :
    Nat → Nat → Option NtfsFileName → Option NtfsFileName
  | 0, _, best => best
  | fuel + 1, offset, best =>
    if offset ≥ used then best
    else
      match NtfsAttribute.new ((data.drop offset).take (used - offset)) with
      | none => best
      | some attr =>
        if attr.type_id = ATTR_END then best
        else if attr.type_id = ATTR_FILE_NAME then
          match attr.as_name with
          | some name =>
            if ¬ name.is_reparse_point ∧ (name.nameSpace = 1 ∨ name.nameSpace = 3) then
              some name
            else
              let best' := if ¬ name.is_reparse_point then some name else best
              if attr.length = 0 then best'
              else if offset + attr.length ≤ used then
                bfnLoop mft data used fuel (offset + attr.length) best'
              else best'
          | none =>
            if attr.length = 0 then best
            else if offset + attr.length ≤ used then
              bfnLoop mft data used fuel (offset + attr.length) best
            else best
        else if attr.type_id = ATTR_ATTRIBUTE_LIST then
          if attr.is_non_resident ≠ 0 then best
          else if ¬ (23 ≤ attr.length) then best
          else
            let value_offset := readLE attr.data 20 2
            let value_length := readLE attr.data 16 4
            if value_offset + value_length ≤ attr.slice.length then
              let att_data := (attr.slice.drop value_offset).take value_length
              match bfnListLoop mft att_data (att_data.length + 1) 0 best with
              | .retSome n => some n
              | .retNone => none
              | .finish best' =>
                if attr.length = 0 then best'
                else if offset + attr.length ≤ used then
                  bfnLoop mft data used fuel (offset + attr.length) best'
                else best'
            else best
        else
          if attr.length = 0 then best
          else if offset + attr.length ≤ used then
            bfnLoop mft data used fuel (offset + attr.length) best
          else best

/-- `NtfsFile::get_best_file_name` (`file.rs`). -/
def NtfsFile.get_best_file_name (f : NtfsFile) (mft : Mft) : Option NtfsFileName :=
  let used := min (readLE f.data 24 4) f.data.length
  bfnLoop mft f.data used (used + 1) (readLE f.data 20 2) none

/-! ## Path caches and path resolution (`file_info.rs`) -/

/-- `HashMapCache`: `std::collections::HashMap` modelled as an
association list where `insert` prepends (the first match shadows older
entries, giving overwrite semantics). -/
structure HashMapCache where
  entries : List (Nat × Path)
deriving DecidableEq, Repr

def HashMapCache.get (c : HashMapCache) (number : Nat) : Option Path :=
  (c.entries.find? fun e => e.1 == number).map (·.2)

def HashMapCache.insert (c : HashMapCache) (number : Nat) (path : Path) : HashMapCache :=
  ⟨(number, path) :: c.entries⟩

/-- `VecCache`: a dense vector indexed by record number, growing on
insert with empty paths (`PathBuf::new()`) as padding. -/
structure VecCache where
  vec : List Path
deriving DecidableEq, Repr

def VecCache.get (c : VecCache) (number : Nat) : Option Path :=
  if c.vec.length > number then some (c.vec.getD number []) else none

def VecCache.insert (c : VecCache) (number : Nat) (path : Path) : VecCache :=
  let v := if c.vec.length ≤ number then
      c.vec ++ List.replicate (number + 1 - c.vec.length) [] else c.vec
  ⟨v.set number path⟩

/-- Replay a sequence of `insert` calls on a `HashMapCache`. -/
def HashMapCache.applyInserts (c : HashMapCache) (ops : List (Nat × Path)) : HashMapCache :=
  ops.foldl (fun c op => c.insert op.1 op.2) c

/-- Replay a sequence of `insert` calls on a `VecCache`. -/
def VecCache.applyInserts (c : VecCache) (ops : List (Nat × Path)) : VecCache :=
  ops.foldl (fun c op => c.insert op.1 op.2) c

/-- Outcome of the parent-walk loop of `FileInfo::_compute_path`. -/
inductive PathLoopResult
  | broke (components : List (Nat × Path))
  | failed
  | outOfFuel
deriving DecidableEq, Repr

/-- The parent-walk loop of `_compute_path` (`file_info.rs`), fuelled:
the source `loop` has no depth bound, so divergence is modelled by
`outOfFuel` for every fuel. -/
def computePathLoop (mft : Mft) : Nat → Nat → List (Nat × Path) → PathLoopResult
  | 0, _, _ => .outOfFuel
  | fuel + 1, next_parent, components =>
    if next_parent = ROOT_RECORD then .broke components
    else
      match mft.get_record next_parent with
      | none => .failed
      | some cur_file =>
        match cur_file.get_best_file_name mft with
        | none => .failed
        | some cur_name_att =>
          computePathLoop mft fuel cur_name_att.parent
            (components ++ [(cur_file.number, [cur_name_att.name])])

/-- `FileInfo::_compute_path` (`file_info.rs`): `none` means the source
loop has not terminated within the given fuel; `some p` is the path the
source assigns (`[]` when it returns early). -/
def computePathF (mft : Mft) (file : NtfsFile) (fuel : Nat) : Option Path :=
  match file.get_best_file_name mft with
  | none => some []
  | some name =>
    match computePathLoop mft fuel name.parent [] with
    | .outOfFuel => none
    | .failed => some []
    | .broke components =>
      some (mft.volume.path ++ (components.reverse.map (·.2)).join ++ [name.name])

/-- Outcome of the parent-walk loop of `_compute_path_with_cache`. -/
inductive CachePathResult
  | broke (components : List (Nat × Path)) (cached : Option Path)
  | failed
  | outOfFuel
deriving DecidableEq, Repr

/-- The parent-walk loop of `_compute_path_with_cache`
(`file_info.rs`): identical to the plain walk except that a cache hit
on the current parent stops the walk with that path as anchor. -/
def computePathCacheLoop (mft : Mft) (cacheGet : Nat → Option Path) :
    Nat → Nat → List (Nat × Path) → CachePathResult
  | 0, _, _ => .outOfFuel
  | fuel + 1, next_parent, components =>
    if next_parent = ROOT_RECORD then .broke components none
    else
      match cacheGet next_parent with
      | some p => .broke components (some p)
      | none =>
        match mft.get_record next_parent with
        | none => .failed
        | some cur_file =>
          match cur_file.get_best_file_name mft with
          | none => .failed
          | some cur_name_att =>
            computePathCacheLoop mft cacheGet fuel cur_name_att.parent
              (components ++ [(cur_file.number, [cur_name_att.name])])

/-- `FileInfo::_compute_path_with_cache` (`file_info.rs`) at the
`VecCache` backing: after the walk, each intermediate parent path and
the final path are inserted into the cache. -/
def computePathWithCacheF (mft : Mft) (file : NtfsFile) (cache : VecCache)
    (fuel : Nat) : Option (Path × VecCache) :=
  match file.get_best_file_name mft with
  | none => some ([], cache)
  | some name =>
    match computePathCacheLoop mft cache.get fuel name.parent [] with
    | .outOfFuel => none
    | .failed => some ([], cache)
    | .broke components cached =>
      let base := cached.getD mft.volume.path
      let pc := components.reverse.foldl
        (fun (pc : Path × VecCache) comp =>
          (pc.1 ++ comp.2, pc.2.insert comp.1 (pc.1 ++ comp.2))) (base, cache)
      some (pc.1 ++ [name.name], pc.2.insert file.number (pc.1 ++ [name.name]))

/-! ## The USN journal (`journal.rs`) -/

/-- `FileId`: 64-bit MFT reference or 128-bit extended id. -/
inductive FileId
  | Normal (id : Nat)
  | Extended (id : Nat)
deriving DecidableEq, Repr

def USN_REASON_RENAME_OLD_NAME : Nat := 0x1000
def USN_REASON_RENAME_NEW_NAME : Nat := 0x2000
def USN_REASON_HARD_LINK_CHANGE : Nat := 0x10000
def USN_REASON_REPARSE_POINT_CHANGE : Nat := 0x100000

/-- The reason bits `handle_history_record` keeps. -/
def historyMask : Nat :=
  USN_REASON_RENAME_OLD_NAME ||| USN_REASON_HARD_LINK_CHANGE |||
    USN_REASON_REPARSE_POINT_CHANGE

/-- A normalised USN record (`journal.rs`). -/
structure UsnRecord where
  usn : Int
  timestamp : Nat
  file_id : FileId
  parent_id : FileId
  reason : Nat
  path : Path
  extents : Option (List (Int × Int))
deriving DecidableEq, Repr

/-- The journal state the history claims touch: the rename-history
deque (`VecDeque` as a list, front first) and `max_history_size`
(`0` encodes `Unlimited`). -/
structure Journal where
  history : List UsnRecord
  max_history_size : Nat
deriving DecidableEq, Repr

/-- `Journal::handle_history_record` (`journal.rs`): push the record
onto the history iff its reason intersects the history mask, popping
the front first when the bounded deque is full. -/
def Journal.handle_history_record (j : Journal) (record : UsnRecord) : Journal :=
  if record.reason &&& historyMask ≠ 0 then
    { j with history :=
        (if j.max_history_size > 0 ∧ j.history.length ≥ j.max_history_size then
          j.history.drop 1 else j.history) ++ [record] }
  else j

/-- `Journal::match_rename` (`journal.rs`): for a record bearing
`RENAME_NEW_NAME`, scan the history newest-first for an entry with the
same `file_id` whose reason includes `RENAME_OLD_NAME`, and return its
path. The USN values are not compared. -/
def Journal.match_rename (j : Journal) (record : UsnRecord) : Option Path :=
  if record.reason &&& USN_REASON_RENAME_NEW_NAME ≠ 0 then
    (j.history.reverse.find? fun old =>
        old.file_id == record.file_id &&
          old.reason &&& USN_REASON_RENAME_OLD_NAME != 0).map (·.path)
  else none

/-! ### Concrete MFT images

`exRecord` is a 256-byte valid record (signature `FILE`, USN at 42,
one-entry USA, `used_size` 160, attributes at 48) holding a single
Win32-namespace `FileName` attribute whose parent reference is record
24 - its own number when placed at index 24, giving a parent cycle.
`exFixRecord` is a 512-byte valid record whose USA entry equals its
USN. -/

def exRecord : List Nat :=
  [70, 73, 76, 69, 42, 0, 1, 0] ++ List.replicate 8 0 ++
  [0, 0, 0, 0, 48, 0, 1, 0] ++ [160, 0, 0, 0] ++ List.replicate 20 0 ++
  [48, 0, 0, 0, 92, 0, 0, 0, 0, 0, 0, 0, 0, 0, 0, 0] ++
  [68, 0, 0, 0, 24, 0, 0, 0] ++ [24, 0, 0, 0, 0, 0, 0, 0] ++
  List.replicate 56 0 ++ [1, 1, 65, 0] ++ [255, 255, 255, 255] ++
  List.replicate 112 0

/-- A one-record MFT whose allocation bitmap is all zeroes although the
record itself is valid. -/
def exMftNoBitmap : Mft :=
  { volume := { file_record_size := 256 }, data := exRecord, bitmap := [0], max_record := 1 }

def exFixRecord : List Nat :=
  [70, 73, 76, 69, 42, 0, 2, 0] ++ List.replicate 12 0 ++ [48, 0, 0, 0] ++
  [160, 0, 0, 0] ++ List.replicate 14 0 ++ [7, 7, 7, 7] ++
  List.replicate 464 0 ++ [7, 7]

/-- Number of iterations of the fixup loop for one record: the length
of `(usa_start..usa_end).step_by(2)` as `fixup_record` computes it. -/
def usaIterations (rec : List Nat) : Nat :=
  (readLE rec 4 2 + readLE rec 6 2 * 2 - (readLE rec 4 2 + 2) + 1) / 2

/-- An MFT image whose record 24 is `exRecord`: its best file name has
parent reference 24, so the parent chain is a self-cycle that never
reaches the root record 5. -/
def exMftCycle : Mft :=
  { volume := { file_record_size := 256 }
    data := List.replicate 6144 0 ++ exRecord
    bitmap := [255, 255, 255, 255]
    max_record := 25 }

/-- The name `exRecord`'s `FileName` attribute parses to. -/
def exName : NtfsFileName :=
  { parent_directory_reference := 24
    file_attributes := 0
    name_length := 1
    nameSpace := 1
    name := [65] }

/-! ### Concrete journal states -/

/-- A history entry: `RENAME_OLD_NAME`, file id 1, USN 100. -/
def exOldRecord : UsnRecord :=
  { usn := 100, timestamp := 0, file_id := .Normal 1, parent_id := .Normal 5
    reason := USN_REASON_RENAME_OLD_NAME, path := [[111]], extents := none }

/-- A rename event: `RENAME_NEW_NAME`, same file id, USN 50 - *below*
the history entry's USN. -/
def exNewRecord : UsnRecord :=
  { usn := 50, timestamp := 0, file_id := .Normal 1, parent_id := .Normal 5
    reason := USN_REASON_RENAME_NEW_NAME, path := [[110]], extents := none }

def exJournal : Journal := { history := [exOldRecord], max_history_size := 0 }

/-! # Theorems -/

/-! ## Helper lemmas about the data-run decoder -/

theorem offPrefixSum_append_of_le (raw l : List RawRun) {j : Nat} (h : j ≤ raw.length) :
    offPrefixSum (raw ++ l) j = offPrefixSum raw j := by
  unfold offPrefixSum
  rw [List.take_append_of_le_length h]

theorem offPrefixSum_snoc (raw : List RawRun) (r : RawRun) :
    offPrefixSum (raw ++ [r]) (raw.length + 1) =
      offPrefixSum raw raw.length + r.off.getD 0 := by
  unfold offPrefixSum
  rw [List.take_of_length_le (by simp), List.take_of_length_le (by simp),
    List.filterMap_append, List.sum_append]
  cases r with
  | mk c o => cases o <;> simp [RawRun.off]

theorem runsMatchRaw_nil (cs : Nat) : runsMatchRaw cs [] [] := by
  refine ⟨rfl, ?_⟩
  intro j hj
  simp at hj

theorem runsMatchRaw_snoc_sparse {cs : Nat} {out : List DataRun} {raw : List RawRun}
    (h : runsMatchRaw cs out raw) (c : Nat) :
    runsMatchRaw cs (out ++ [.Sparse (c * cs)]) (raw ++ [⟨c, none⟩]) := by
  obtain ⟨hlen, hrel⟩ := h
  refine ⟨by simp [hlen], ?_⟩
  intro j hj
  rcases Nat.lt_or_ge j raw.length with hlt | hge
  · have e1 : (raw ++ [(⟨c, none⟩ : RawRun)]).get? j = raw.get? j := List.get?_append hlt
    have e2 : (out ++ [DataRun.Sparse (c * cs)]).get? j = out.get? j :=
      List.get?_append (hlen ▸ hlt)
    have hsum : offPrefixSum (raw ++ [(⟨c, none⟩ : RawRun)]) (j + 1) = offPrefixSum raw (j + 1) :=
      offPrefixSum_append_of_le raw _ hlt
    obtain ⟨hs, hd⟩ := hrel j hlt
    exact ⟨fun c' hc' => by rw [e2]; exact hs c' (e1 ▸ hc'),
      fun c' o' hc' => by
        obtain ⟨h0, hg⟩ := hd c' o' (e1 ▸ hc')
        exact ⟨hsum ▸ h0, by rw [e2, hg, hsum]⟩⟩
  · have hj' : j = raw.length := by
      simp [List.length_append] at hj
      omega
    subst hj'
    have e1 : (raw ++ [(⟨c, none⟩ : RawRun)]).get? raw.length = some ⟨c, none⟩ :=
      List.get?_concat_length raw _
    have e2 : (out ++ [DataRun.Sparse (c * cs)]).get? raw.length = some (.Sparse (c * cs)) := by
      rw [← hlen]
      exact List.get?_concat_length out _
    refine ⟨fun c' hc' => ?_, fun c' o' hc' => ?_⟩
    · rw [e1] at hc'
      cases hc'
      exact e2
    · rw [e1] at hc'
      cases hc'

theorem runsMatchRaw_snoc_data {cs : Nat} {out : List DataRun} {raw : List RawRun}
    (h : runsMatchRaw cs out raw) (c : Nat) (o : Int) {start : Int}
    (hstart : start = (cs : Int) * offPrefixSum (raw ++ [⟨c, some o⟩]) (raw.length + 1))
    (h0 : 0 ≤ start) :
    runsMatchRaw cs (out ++ [.Data (start.toNat % 2 ^ 64) (c * cs)]) (raw ++ [⟨c, some o⟩]) := by
  obtain ⟨hlen, hrel⟩ := h
  refine ⟨by simp [hlen], ?_⟩
  intro j hj
  rcases Nat.lt_or_ge j raw.length with hlt | hge
  · have e1 : (raw ++ [(⟨c, some o⟩ : RawRun)]).get? j = raw.get? j := List.get?_append hlt
    have e2 : (out ++ [DataRun.Data (start.toNat % 2 ^ 64) (c * cs)]).get? j = out.get? j :=
      List.get?_append (hlen ▸ hlt)
    have hsum : offPrefixSum (raw ++ [(⟨c, some o⟩ : RawRun)]) (j + 1) = offPrefixSum raw (j + 1) :=
      offPrefixSum_append_of_le raw _ hlt
    obtain ⟨hs, hd⟩ := hrel j hlt
    exact ⟨fun c' hc' => by rw [e2]; exact hs c' (e1 ▸ hc'),
      fun c' o' hc' => by
        obtain ⟨h0', hg⟩ := hd c' o' (e1 ▸ hc')
        exact ⟨hsum ▸ h0', by rw [e2, hg, hsum]⟩⟩
  · have hj' : j = raw.length := by
      simp [List.length_append] at hj
      omega
    subst hj'
    have e1 : (raw ++ [(⟨c, some o⟩ : RawRun)]).get? raw.length = some ⟨c, some o⟩ :=
      List.get?_concat_length raw _
    have e2 : (out ++ [DataRun.Data (start.toNat % 2 ^ 64) (c * cs)]).get? raw.length =
        some (.Data (start.toNat % 2 ^ 64) (c * cs)) := by
      rw [← hlen]
      exact List.get?_concat_length out _
    refine ⟨fun c' hc' => ?_, fun c' o' hc' => ?_⟩
    · rw [e1] at hc'
      cases hc'
    · rw [e1] at hc'
      cases hc'
      exact ⟨hstart ▸ h0, by rw [e2, hstart]⟩

theorem advanceLcn_ok {prev off : Int} {cs : Nat} {start : Int}
    (h : advanceLcn prev off cs = .ok start) :
    start = prev + off * cs ∧ 0 ≤ start := by
  simp only [advanceLcn] at h
  split_ifs at h with g1 g2 g3
  cases h
  exact ⟨rfl, le_of_not_lt g3⟩

theorem dataRunLoopF_succ (rd : List Nat) (cs fuel cursor : Nat) (prev : Int)
    (total : Nat) (out : List DataRun) :
    dataRunLoopF rd cs (fuel + 1) cursor prev total out =
      match dataRunStep rd cs cursor total with
      | .stop => .ok (total, out)
      | .fail e => .error e
      | .sparse c cursor' =>
        dataRunLoopF rd cs fuel cursor' prev (total + c * cs) (out ++ [DataRun.Sparse (c * cs)])
      | .data c o cursor' =>
        match advanceLcn prev o cs with
        | .error e => .error e
        | .ok start =>
          dataRunLoopF rd cs fuel cursor' start (total + c * cs)
            (out ++ [DataRun.Data (start.toNat % 2 ^ 64) (c * cs)]) := rfl

theorem rawRunLoopF_succ (rd : List Nat) (cs fuel cursor : Nat) (prev : Int)
    (total : Nat) (out : List RawRun) :
    rawRunLoopF rd cs (fuel + 1) cursor prev total out =
      match dataRunStep rd cs cursor total with
      | .stop => some out
      | .fail _ => none
      | .sparse c cursor' =>
        rawRunLoopF rd cs fuel cursor' prev (total + c * cs) (out ++ [⟨c, none⟩])
      | .data c o cursor' =>
        match advanceLcn prev o cs with
        | .error _ => none
        | .ok start =>
          rawRunLoopF rd cs fuel cursor' start (total + c * cs) (out ++ [⟨c, some o⟩]) := rfl

theorem dataRunLoopF_rel (rd : List Nat) (cs : Nat) :
    ∀ fuel cursor prev total out rawOut tl runs,
      dataRunLoopF rd cs fuel cursor prev total out = .ok (tl, runs) →
      runsMatchRaw cs out rawOut →
      prev = (cs : Int) * offPrefixSum rawOut rawOut.length →
      ∃ raw, rawRunLoopF rd cs fuel cursor prev total rawOut = some raw ∧
        runsMatchRaw cs runs raw := by
  intro fuel
  induction fuel with
  | zero =>
    intro cursor prev total out rawOut tl runs h _ _
    exact Except.noConfusion h
  | succ fuel ih =>
    intro cursor prev total out rawOut tl runs h hmatch hprev
    rw [dataRunLoopF_succ] at h
    rw [rawRunLoopF_succ]
    cases hs : dataRunStep rd cs cursor total with
    | stop =>
      rw [hs] at h
      simp only [Except.ok.injEq, Prod.mk.injEq] at h
      obtain ⟨rfl, rfl⟩ := h
      exact ⟨rawOut, rfl, hmatch⟩
    | fail e =>
      rw [hs] at h
      exact Except.noConfusion h
    | sparse c cursor' =>
      rw [hs] at h
      refine ih cursor' prev (total + c * cs) _ (rawOut ++ [⟨c, none⟩]) tl runs h
        (runsMatchRaw_snoc_sparse hmatch c) ?_
      rw [List.length_append, List.length_singleton, offPrefixSum_snoc, hprev]
      simp [RawRun.off]
    | data c o cursor' =>
      rw [hs] at h
      simp only [] at h
      cases ha : advanceLcn prev o cs with
      | error e =>
        rw [ha] at h
        exact Except.noConfusion h
      | ok start =>
        rw [ha] at h
        simp only [] at h
        simp only []
        rw [ha]
        obtain ⟨hst, h0⟩ := advanceLcn_ok ha
        have hsum : start =
            (cs : Int) * offPrefixSum (rawOut ++ [⟨c, some o⟩]) (rawOut.length + 1) := by
          rw [offPrefixSum_snoc, hst, hprev]
          simp only [RawRun.off, Option.getD_some]
          ring
        refine ih cursor' start (total + c * cs) _ (rawOut ++ [⟨c, some o⟩]) tl runs h
          (runsMatchRaw_snoc_data hmatch c o hsum h0) ?_
        rw [List.length_append, List.length_singleton]
        exact hsum

theorem dataRunLoopF_sum (rd : List Nat) (cs : Nat) :
    ∀ fuel cursor prev total out tl runs,
      dataRunLoopF rd cs fuel cursor prev total out = .ok (tl, runs) →
      (runs.map DataRun.runLength).sum + total = (out.map DataRun.runLength).sum + tl := by
  intro fuel
  induction fuel with
  | zero =>
    intro cursor prev total out tl runs h
    exact Except.noConfusion h
  | succ fuel ih =>
    intro cursor prev total out tl runs h
    rw [dataRunLoopF_succ] at h
    cases hs : dataRunStep rd cs cursor total with
    | stop =>
      rw [hs] at h
      simp only [Except.ok.injEq, Prod.mk.injEq] at h
      obtain ⟨rfl, rfl⟩ := h
      rfl
    | fail e =>
      rw [hs] at h
      exact Except.noConfusion h
    | sparse c cursor' =>
      rw [hs] at h
      have := ih _ _ _ _ _ _ h
      simp only [List.map_append, List.sum_append, List.map_cons, List.map_nil,
        List.sum_cons, List.sum_nil, DataRun.runLength] at this ⊢
      omega
    | data c o cursor' =>
      rw [hs] at h
      simp only [] at h
      cases ha : advanceLcn prev o cs with
      | error e =>
        rw [ha] at h
        exact Except.noConfusion h
      | ok start =>
        rw [ha] at h
        simp only [] at h
        have := ih _ _ _ _ _ _ h
        simp only [List.map_append, List.sum_append, List.map_cons, List.map_nil,
          List.sum_cons, List.sum_nil, DataRun.runLength] at this ⊢
        omega

/-- C10: for arguments below the epoch difference the function panics
(no value); for arguments at or above it whose scaled result lies in the
supported range it returns `(ticks − EPOCH_DIFFERENCE) × 100` nanoseconds
after the Unix epoch. -/
theorem ntfs_to_unix_time_total_iff (src : Nat) (hsrc : src < 2 ^ 64) :
    (src < EPOCH_DIFFERENCE → ntfs_to_unix_time src = none) ∧
    (EPOCH_DIFFERENCE ≤ src →
      ((src - EPOCH_DIFFERENCE : Nat) : Int) * 100 ≤ odtMaxNanos →
      ntfs_to_unix_time src = some (((src - EPOCH_DIFFERENCE : Nat) : Int) * 100)) := by
  constructor
  · intro hlt
    have hmod : u64WrappingSub src EPOCH_DIFFERENCE = src + 2 ^ 64 - EPOCH_DIFFERENCE := by
      unfold u64WrappingSub
      have : src + 2 ^ 64 - EPOCH_DIFFERENCE < 2 ^ 64 := by
        unfold EPOCH_DIFFERENCE at *; omega
      exact Nat.mod_eq_of_lt this
    unfold ntfs_to_unix_time fromUnixTimestampNanos
    rw [hmod]
    have hbig : odtMaxNanos < ((src + 2 ^ 64 - EPOCH_DIFFERENCE : Nat) : Int) * 100 := by
      unfold odtMaxNanos EPOCH_DIFFERENCE at *
      omega
    simp only [ite_eq_right_iff]
    intro h
    exact absurd h.2 (not_le.mpr hbig)
  · intro hge hmax
    have hmod : u64WrappingSub src EPOCH_DIFFERENCE = src - EPOCH_DIFFERENCE := by
      unfold u64WrappingSub
      have h1 : src + 2 ^ 64 - EPOCH_DIFFERENCE = (src - EPOCH_DIFFERENCE) + 1 * 2 ^ 64 := by
        omega
      rw [h1, Nat.add_mul_mod_self_right]
      exact Nat.mod_eq_of_lt (by omega)
    unfold ntfs_to_unix_time fromUnixTimestampNanos
    rw [hmod]
    have hmin : odtMinNanos ≤ ((src - EPOCH_DIFFERENCE : Nat) : Int) * 100 := by
      unfold odtMinNanos
      omega
    rw [if_pos ⟨hmin, hmax⟩]


/-- C5: whenever `get_nonresident_data_runs` returns `Ok((size, runs))`,
the sum of the decoded run lengths is at least `size`, and `runs` is
non-empty whenever `size > 0` (the function errors otherwise). -/
theorem get_nonresident_data_runs_total (a : NtfsAttribute) (v : Volume)
    (size : Nat) (runs : List DataRun)
    (h : get_nonresident_data_runs a v = .ok (size, runs)) :
    size ≤ (runs.map DataRun.runLength).sum ∧ (0 < size → runs ≠ []) := by
  simp only [get_nonresident_data_runs] at h
  by_cases h1 : a.hasNonresidentHeader
  · rw [if_neg (not_not_intro h1)] at h
    by_cases h2 : a.data_size = 0
    · rw [if_pos h2] at h
      simp only [Except.ok.injEq, Prod.mk.injEq] at h
      obtain ⟨rfl, rfl⟩ := h
      exact ⟨by omega, fun hp => absurd h2 (by omega)⟩
    · rw [if_neg h2] at h
      by_cases h3 : a.data_runs_offset > a.length
      · rw [if_pos h3] at h
        exact Except.noConfusion h
      · rw [if_neg h3] at h
        cases hm : dataRunLoopF (a.slice.drop a.data_runs_offset) v.cluster_size
            ((a.slice.drop a.data_runs_offset).length + 1) 0 0 0 [] with
        | error e =>
          rw [hm] at h
          exact Except.noConfusion h
        | ok p =>
          obtain ⟨tl, out⟩ := p
          rw [hm] at h
          simp only [] at h
          split_ifs at h with h4 h5
          simp only [Except.ok.injEq, Prod.mk.injEq] at h
          obtain ⟨rfl, rfl⟩ := h
          have hsum := dataRunLoopF_sum _ _ _ _ _ _ _ _ _ hm
          simp only [List.map_nil, List.sum_nil, Nat.add_zero, Nat.zero_add] at hsum
          constructor
          · omega
          · intro hpos hnil
            exact h4 ⟨hpos, hnil⟩
  · rw [if_pos h1] at h
    exact Except.noConfusion h

set_option maxRecDepth 8000 in
/-- C5 witness: the example attribute decodes to `Ok` and satisfies the
conclusion at `size = 2`, `runs = [Data 6 2]`. -/
theorem get_nonresident_data_runs_total_witness :
    (2 : Nat) ≤ ([DataRun.Data 6 2].map DataRun.runLength).sum ∧
    (0 < 2 → ([DataRun.Data 6 2] : List DataRun) ≠ []) :=
  get_nonresident_data_runs_total exAttr exVolume 2 [DataRun.Data 6 2] (by rfl)

/-- C1 (amended): whenever `get_nonresident_data_runs` returns
`Ok((size, runs))` with `size ≠ 0`, each emitted `Data` run's `lcn` is
`cluster_size` times the running sum of the sign-extended relative
cluster offsets decoded so far - an absolute starting *byte* offset,
truncated to 64 bits - and each run's length is its cluster count times
`cluster_size`. -/
theorem get_nonresident_data_runs_lcn_scaled (a : NtfsAttribute) (v : Volume)
    (size : Nat) (runs : List DataRun)
    (h : get_nonresident_data_runs a v = .ok (size, runs)) :
    (size = 0 → runs = []) ∧
    (size ≠ 0 → ∃ raw, rawRuns a v = some raw ∧ runsMatchRaw v.cluster_size runs raw) := by
  simp only [get_nonresident_data_runs] at h
  by_cases h1 : a.hasNonresidentHeader
  · rw [if_neg (not_not_intro h1)] at h
    by_cases h2 : a.data_size = 0
    · rw [if_pos h2] at h
      simp only [Except.ok.injEq, Prod.mk.injEq] at h
      obtain ⟨rfl, rfl⟩ := h
      exact ⟨fun _ => rfl, fun hne => absurd h2 hne⟩
    · rw [if_neg h2] at h
      by_cases h3 : a.data_runs_offset > a.length
      · rw [if_pos h3] at h
        exact Except.noConfusion h
      · rw [if_neg h3] at h
        cases hm : dataRunLoopF (a.slice.drop a.data_runs_offset) v.cluster_size
            ((a.slice.drop a.data_runs_offset).length + 1) 0 0 0 [] with
        | error e =>
          rw [hm] at h
          exact Except.noConfusion h
        | ok p =>
          obtain ⟨tl, out⟩ := p
          rw [hm] at h
          simp only [] at h
          split_ifs at h with h4 h5
          simp only [Except.ok.injEq, Prod.mk.injEq] at h
          obtain ⟨rfl, rfl⟩ := h
          refine ⟨fun h0 => absurd h0 h2, fun _ => ?_⟩
          obtain ⟨raw, hraw, hmatch⟩ :=
            dataRunLoopF_rel (a.slice.drop a.data_runs_offset) v.cluster_size
              ((a.slice.drop a.data_runs_offset).length + 1) 0 0 0 [] [] tl out hm
              (runsMatchRaw_nil v.cluster_size) (by simp [offPrefixSum])
          exact ⟨raw, hraw, hmatch⟩
  · rw [if_pos h1] at h
    exact Except.noConfusion h

set_option maxRecDepth 8000 in
/-- C1 witness: the amended conclusion holds at the example attribute. -/
theorem get_nonresident_data_runs_lcn_scaled_witness :
    ((2 : Nat) = 0 → ([DataRun.Data 6 2] : List DataRun) = []) ∧
    ((2 : Nat) ≠ 0 → ∃ raw, rawRuns exAttr exVolume = some raw ∧
      runsMatchRaw exVolume.cluster_size [DataRun.Data 6 2] raw) :=
  get_nonresident_data_runs_lcn_scaled exAttr exVolume 2 [DataRun.Data 6 2] (by rfl)

set_option maxRecDepth 8000 in
/-- C1 counterexample: on the example attribute (cluster size 2, one run
of one cluster at relative offset 3) the emitted `lcn` is `6`, not the
running offset sum `3` the claim states: the code scales the sum by the
cluster size (`lcn` is a byte position, which `read_attribute_data`
seeks to directly). -/
theorem get_nonresident_data_runs_lcn_counterexample :
    NtfsAttribute.new exAttrData = some exAttr ∧
    get_nonresident_data_runs exAttr exVolume = .ok (2, [DataRun.Data 6 2]) ∧
    rawRuns exAttr exVolume = some [⟨1, some 3⟩] ∧
    offPrefixSum [⟨1, some 3⟩] 1 = 3 ∧
    ¬ (6 : Nat) = ((3 : Int)).toNat := by
  refine ⟨?_, ?_, ?_, ?_, ?_⟩
  · rfl
  · rfl
  · rfl
  · rfl
  · decide


/-- C10 witness: at `0` (below the epoch difference) the conversion
panics, and at `EPOCH_DIFFERENCE + 1` it returns 100 nanoseconds after
the Unix epoch. -/
theorem ntfs_to_unix_time_total_iff_witness :
    ((0 : Nat) < 2 ^ 64 ∧ 0 < EPOCH_DIFFERENCE ∧ ntfs_to_unix_time 0 = none) ∧
    (EPOCH_DIFFERENCE + 1 < 2 ^ 64 ∧ EPOCH_DIFFERENCE ≤ EPOCH_DIFFERENCE + 1 ∧
      ((EPOCH_DIFFERENCE + 1 - EPOCH_DIFFERENCE : Nat) : Int) * 100 ≤ odtMaxNanos ∧
      ntfs_to_unix_time (EPOCH_DIFFERENCE + 1) =
        some (((EPOCH_DIFFERENCE + 1 - EPOCH_DIFFERENCE : Nat) : Int) * 100)) :=
  ⟨⟨by decide, by decide, (ntfs_to_unix_time_total_iff 0 (by decide)).1 (by decide)⟩,
    ⟨by decide, by decide, by decide,
      (ntfs_to_unix_time_total_iff (EPOCH_DIFFERENCE + 1) (by decide)).2
        (by decide) (by decide)⟩⟩


/-- C2 (amended): `get_record(n)` returns a file-record view (of the
record's bytes) iff `n < max_record` and the bytes pass `is_valid`;
the allocation bitmap (`record_exists`) is not consulted, as the second
conjunct makes explicit. -/
theorem get_record_iff (m : Mft) (n : Nat) :
    (m.get_record n =
      if n < m.max_record ∧ NtfsFile.is_valid (m.get_record_data n) = true then
        some ⟨n, m.get_record_data n⟩
      else none) ∧
    ∀ bm : List Nat, Mft.get_record { m with bitmap := bm } n = m.get_record n := by
  refine ⟨?_, fun bm => rfl⟩
  simp only [Mft.get_record]
  by_cases h1 : n ≥ m.max_record
  · rw [if_pos h1, if_neg fun hc => absurd hc.1 (by omega)]
  · rw [if_neg h1]
    by_cases h2 : NtfsFile.is_valid (m.get_record_data n) = true
    · rw [if_pos h2, if_pos ⟨by omega, h2⟩]
    · rw [if_neg h2, if_neg fun hc => h2 hc.2]

set_option maxRecDepth 4000 in
/-- C2 counterexample: a one-record MFT whose bitmap bit 0 is clear but
whose record bytes are valid: `record_exists 0` is false, yet
`get_record 0` returns the view, contradicting the claimed equivalence
with `record_exists ∧ is_valid`. -/
theorem get_record_counterexample :
    Mft.record_exists exMftNoBitmap 0 = false ∧
    NtfsFile.is_valid exRecord = true ∧
    Mft.get_record exMftNoBitmap 0 = some ⟨0, exRecord⟩ := by
  refine ⟨?_, ?_, ?_⟩
  · rfl
  · rfl
  · rfl

/-- C7: `iterate_files` invokes its callback exactly once per record
number `n ∈ [24, max_record)` for which `record_exists n` holds and
`get_record n` yields an in-use (and hence valid) view, in strictly
ascending order. -/
theorem iterate_files_spec (m : Mft) :
    List.Chain' (· < ·) m.iterate_files_visited ∧
    m.iterate_files_visited.Nodup ∧
    ∀ n, n ∈ m.iterate_files_visited ↔
      FIRST_NORMAL_RECORD ≤ n ∧ n < m.max_record ∧ m.record_exists n = true ∧
        ∃ f, m.get_record n = some f ∧ f.is_used = true := by
  have hpw : (List.range' FIRST_NORMAL_RECORD (m.max_record - FIRST_NORMAL_RECORD)).Pairwise
      (· < ·) := List.pairwise_lt_range' _ _
  refine ⟨List.chain'_iff_pairwise.mpr (hpw.filter _), (hpw.filter _).imp Nat.ne_of_lt, ?_⟩
  intro n
  simp only [Mft.iterate_files_visited, List.mem_filter, List.mem_range'_1, Bool.and_eq_true]
  constructor
  · rintro ⟨⟨hlo, hhi⟩, hex, hmatch⟩
    refine ⟨hlo, ?_, hex, ?_⟩
    · unfold FIRST_NORMAL_RECORD at *
      omega
    · cases hg : m.get_record n with
      | none => rw [hg] at hmatch; exact absurd hmatch (by simp)
      | some f => exact ⟨f, rfl, by rw [hg] at hmatch; exact hmatch⟩
  · rintro ⟨hlo, hhi, hex, f, hg, hused⟩
    refine ⟨⟨hlo, ?_⟩, hex, ?_⟩
    · unfold FIRST_NORMAL_RECORD at *
      omega
    · rw [hg]
      exact hused


/-! ## Helper lemmas for the fixup stage -/

theorem byteAt_set_self {d : List Nat} {i : Nat} (v : Nat) (h : i < d.length) :
    byteAt (d.set i v) i = v := by
  simp [byteAt, List.getD_eq_getElem?_getD, List.getElem?_set, h]

theorem byteAt_set_ne {d : List Nat} {i j : Nat} (v : Nat) (h : i ≠ j) :
    byteAt (d.set i v) j = byteAt d j := by
  simp [byteAt, List.getD_eq_getElem?_getD, List.getElem?_set, h]

theorem recSlice_length {d : List Nat} {frs i : Nat} (h : i * frs + frs ≤ d.length) :
    (recSlice d frs i).length = frs := by
  simp only [recSlice, List.length_take, List.length_drop]
  omega

theorem splice_length {d s : List Nat} {frs n : Nat} (hs : s.length = frs)
    (hb : n * frs + frs ≤ d.length) :
    (d.take (n * frs) ++ s ++ d.drop (n * frs + frs)).length = d.length := by
  simp only [List.length_append, List.length_take, List.length_drop]
  omega

theorem recSlice_splice_lt {d s : List Nat} {frs n i : Nat} (hs : s.length = frs)
    (hb : n * frs + frs ≤ d.length) (hi : i < n) :
    recSlice (d.take (n * frs) ++ s ++ d.drop (n * frs + frs)) frs i = recSlice d frs i := by
  unfold recSlice
  have h1 : i * frs + frs ≤ n * frs := by
    have : (i + 1) * frs ≤ n * frs := Nat.mul_le_mul_right _ (by omega)
    calc i * frs + frs = (i + 1) * frs := by ring
    _ ≤ n * frs := this
  have hpre : (d.take (n * frs)).length = n * frs := by
    simp only [List.length_take]
    omega
  have hlen1 : (List.drop (i * frs) (d.take (n * frs))).length = n * frs - i * frs := by
    simp only [List.length_drop, hpre]
  rw [List.append_assoc, List.drop_append_of_le_length (by omega),
    List.take_append_of_le_length (by omega), List.drop_take, List.take_take,
    Nat.min_eq_left (by omega)]

theorem recSlice_splice_eq {d s : List Nat} {frs n : Nat} (hs : s.length = frs)
    (hb : n * frs + frs ≤ d.length) :
    recSlice (d.take (n * frs) ++ s ++ d.drop (n * frs + frs)) frs n = s := by
  unfold recSlice
  have hpre : (d.take (n * frs)).length = n * frs := by
    simp only [List.length_take]
    omega
  rw [List.append_assoc, List.drop_append_of_le_length (le_of_eq hpre.symm),
    List.drop_eq_nil_of_le (le_of_eq hpre), List.nil_append,
    List.take_append_eq_append_take, List.take_of_length_le (le_of_eq hs),
    hs, Nat.sub_self, List.take_zero, List.append_nil]

theorem recSlice_splice_gt {d s : List Nat} {frs n i : Nat} (hs : s.length = frs)
    (hb : n * frs + frs ≤ d.length) (hi : n < i) :
    recSlice (d.take (n * frs) ++ s ++ d.drop (n * frs + frs)) frs i = recSlice d frs i := by
  unfold recSlice
  have hpre : (d.take (n * frs)).length = n * frs := by
    simp only [List.length_take]
    omega
  have h1 : n * frs + frs ≤ i * frs := by
    have : (n + 1) * frs ≤ i * frs := Nat.mul_le_mul_right _ (by omega)
    calc n * frs + frs = (n + 1) * frs := by ring
    _ ≤ i * frs := this
  rw [List.drop_append_eq_append_drop, List.drop_append_eq_append_drop]
  have e1 : List.drop (i * frs) (d.take (n * frs)) = [] :=
    List.drop_eq_nil_of_le (by omega)
  have e2 : List.drop (i * frs - (d.take (n * frs)).length) s = [] :=
    List.drop_eq_nil_of_le (by rw [hs, hpre]; omega)
  rw [e1, e2, List.drop_drop]
  simp only [List.nil_append]
  have hX : n * frs + frs + (i * frs - (d.take (n * frs) ++ s).length) = i * frs := by
    simp only [List.length_append, hpre, hs]
    omega
  rw [hX]


theorem fixupLoop_length (number usn0 usn1 : Nat) :
    ∀ k data usa_off sector_off s,
      fixupLoop number usn0 usn1 k data usa_off sector_off = .ok s →
      s.length = data.length := by
  intro k
  induction k with
  | zero =>
    intro data usa_off sector_off s h
    rw [fixupLoop] at h
    simp only [Except.ok.injEq] at h
    rw [← h]
  | succ k ih =>
    intro data usa_off sector_off s h
    rw [fixupLoop] at h
    split_ifs at h with g1 g2
    · simp only [Except.ok.injEq] at h
      rw [← h]
    · have := ih _ _ _ _ h
      simpa only [List.length_set] using this

theorem fixupLoop_error (number usn0 usn1 : Nat) :
    ∀ k data usa_off sector_off e,
      fixupLoop number usn0 usn1 k data usa_off sector_off = .error e →
      e = .CorruptMftRecord number := by
  intro k
  induction k with
  | zero =>
    intro data usa_off sector_off e h
    rw [fixupLoop] at h
    exact Except.noConfusion h
  | succ k ih =>
    intro data usa_off sector_off e h
    rw [fixupLoop] at h
    split_ifs at h with g1 g2
    · simp only [Except.error.injEq] at h
      rw [← h]
    · exact ih _ _ _ _ h

theorem fixupLoop_spec (number usn0 usn1 : Nat) :
    ∀ k data usa_off sector_off s,
      fixupLoop number usn0 usn1 k data usa_off sector_off = .ok s →
      usa_off + 2 * k ≤ sector_off →
      (∀ j, j < sector_off → byteAt s j = byteAt data j) ∧
      ∀ i, i < k → sector_off + 512 * i + 2 ≤ data.length →
        (byteAt data (sector_off + 512 * i) = usn0 ∧
          byteAt data (sector_off + 512 * i + 1) = usn1) ∧
        (byteAt s (sector_off + 512 * i) = byteAt data (usa_off + 2 * i) ∧
          byteAt s (sector_off + 512 * i + 1) = byteAt data (usa_off + 2 * i + 1)) := by
  intro k
  induction k with
  | zero =>
    intro data usa_off sector_off s h hdisj
    rw [fixupLoop] at h
    simp only [Except.ok.injEq] at h
    subst h
    exact ⟨fun j _ => rfl, fun i hi => absurd hi (by omega)⟩
  | succ k ih =>
    intro data usa_off sector_off s h hdisj
    rw [fixupLoop] at h
    simp only [SECTOR_SIZE] at h
    split_ifs at h with g1 g2
    · simp only [Except.ok.injEq] at h
      subst h
      refine ⟨fun j _ => rfl, ?_⟩
      intro i hi hsec
      exact absurd hsec (by omega)
    · push_neg at g2
      obtain ⟨he0, he1⟩ := g2
      have hne10 : sector_off + 1 ≠ sector_off := by omega
      have hlt0 : sector_off < data.length := by omega
      have hlt1 : sector_off + 1 < (data.set sector_off (byteAt data usa_off)).length := by
        simp only [List.length_set]
        omega
      have hlen' : ((data.set sector_off (byteAt data usa_off)).set (sector_off + 1)
          (byteAt data (usa_off + 1))).length = data.length := by
        simp only [List.length_set]
      have hbelow' : ∀ j, j ≠ sector_off → j ≠ sector_off + 1 →
          byteAt ((data.set sector_off (byteAt data usa_off)).set (sector_off + 1)
            (byteAt data (usa_off + 1))) j = byteAt data j := by
        intro j hj0 hj1
        rw [byteAt_set_ne _ (fun hc => hj1 hc.symm), byteAt_set_ne _ (fun hc => hj0 hc.symm)]
      obtain ⟨ihbelow, ihiter⟩ := ih _ _ _ _ h (by omega)
      constructor
      · intro j hj
        rw [ihbelow j (by omega), hbelow' j (by omega) (by omega)]
      · intro i hi hsec
        cases i with
        | zero =>
          simp only [Nat.mul_zero, Nat.add_zero]
          refine ⟨⟨he0, he1⟩, ?_, ?_⟩
          · rw [ihbelow sector_off (by omega), byteAt_set_ne _ hne10, byteAt_set_self _ hlt0]
          · rw [ihbelow (sector_off + 1) (by omega), byteAt_set_self _ hlt1]
        | succ i' =>
          have hsec' : sector_off + 512 + 512 * i' + 2 ≤
              ((data.set sector_off (byteAt data usa_off)).set (sector_off + 1)
                (byteAt data (usa_off + 1))).length := by
            rw [hlen']
            omega
          obtain ⟨⟨hu0, hu1⟩, hw0, hw1⟩ := ihiter i' (by omega) hsec'
          have hp0 : sector_off + 512 * (i' + 1) = sector_off + 512 + 512 * i' := by ring
          have hp1 : usa_off + 2 * (i' + 1) = usa_off + 2 + 2 * i' := by ring
          rw [hp0, hp1]
          rw [hbelow' (sector_off + 512 + 512 * i') (by omega) (by omega)] at hu0
          rw [hbelow' (sector_off + 512 + 512 * i' + 1) (by omega) (by omega)] at hu1
          rw [hbelow' (usa_off + 2 + 2 * i') (by omega) (by omega)] at hw0
          rw [hbelow' (usa_off + 2 + 2 * i' + 1) (by omega) (by omega)] at hw1
          exact ⟨⟨hu0, hu1⟩, hw0, hw1⟩


theorem fixup_record_length {n : Nat} {rec s : List Nat}
    (h : fixup_record n rec = .ok s) : s.length = rec.length := by
  simp only [fixup_record] at h
  split_ifs at h with g1 g2 g3
  exact fixupLoop_length _ _ _ _ _ _ _ _ h

theorem fixup_record_error {n : Nat} {rec : List Nat} {e : NtfsReaderError}
    (h : fixup_record n rec = .error e) : e = .CorruptMftRecord n := by
  simp only [fixup_record] at h
  split_ifs at h with g1 g2 g3
  · simp only [Except.error.injEq] at h
    rw [← h]
  · simp only [Except.error.injEq] at h
    rw [← h]
  · simp only [Except.error.injEq] at h
    rw [← h]
  · exact fixupLoop_error _ _ _ _ _ _ _ _ h

theorem applyFixup_eq (frs n : Nat) (d : List Nat) :
    applyFixup frs n d =
      match fixup_record n (recSlice d frs n) with
      | .error e => .error e
      | .ok s => .ok (d.take (n * frs) ++ s ++ d.drop (n * frs + frs)) := rfl

theorem fixupUpTo_succ (frs n : Nat) (data : List Nat) :
    fixupUpTo frs (n + 1) data =
      match fixupUpTo frs n data with
      | .error e => .error e
      | .ok d => applyFixup frs n d := rfl

theorem fixupUpTo_spec (frs : Nat) :
    ∀ count data, count * frs ≤ data.length →
      (∀ res, fixupUpTo frs count data = .ok res →
        res.length = data.length ∧
        (∀ i, i < count → fixup_record i (recSlice data frs i) = .ok (recSlice res frs i)) ∧
        (∀ i, count ≤ i → recSlice res frs i = recSlice data frs i)) ∧
      (∀ e, fixupUpTo frs count data = .error e →
        ∃ i, i < count ∧ e = .CorruptMftRecord i ∧
          fixup_record i (recSlice data frs i) = .error e) ∧
      ((∀ i, i < count → ∃ s, fixup_record i (recSlice data frs i) = .ok s) →
        ∃ res, fixupUpTo frs count data = .ok res) := by
  intro count
  induction count with
  | zero =>
    intro data hb
    refine ⟨?_, ?_, ?_⟩
    · intro res h
      rw [fixupUpTo] at h
      simp only [Except.ok.injEq] at h
      subst h
      exact ⟨rfl, fun i hi => absurd hi (by omega), fun i _ => rfl⟩
    · intro e h
      rw [fixupUpTo] at h
      exact Except.noConfusion h
    · intro _
      exact ⟨data, rfl⟩
  | succ n ih =>
    intro data hb
    have hbn : n * frs + frs ≤ data.length := by
      have he : n * frs + frs = (n + 1) * frs := by ring
      rw [he]
      exact hb
    have hb' : n * frs ≤ data.length := by omega
    obtain ⟨ihok, iherr, ihex⟩ := ih data hb'
    refine ⟨?_, ?_, ?_⟩
    · intro res h
      rw [fixupUpTo_succ] at h
      cases hu : fixupUpTo frs n data with
      | error e =>
        rw [hu] at h
        exact Except.noConfusion h
      | ok d =>
        rw [hu] at h
        simp only [] at h
        rw [applyFixup_eq] at h
        obtain ⟨hdlen, hdfix, hdsame⟩ := ihok d hu
        have hsame_n : recSlice d frs n = recSlice data frs n := hdsame n (le_refl n)
        cases hf : fixup_record n (recSlice d frs n) with
        | error e =>
          rw [hf] at h
          exact Except.noConfusion h
        | ok srec =>
          rw [hf] at h
          simp only [Except.ok.injEq] at h
          subst h
          have hsl : srec.length = frs := by
            rw [fixup_record_length hf, hsame_n]
            exact recSlice_length hbn
          have hbd : n * frs + frs ≤ d.length := by
            rw [hdlen]
            exact hbn
          refine ⟨?_, ?_, ?_⟩
          · rw [splice_length hsl hbd, hdlen]
          · intro i hi
            rcases Nat.lt_or_ge i n with hlt | hge
            · rw [recSlice_splice_lt hsl hbd hlt]
              exact hdfix i hlt
            · have : i = n := by omega
              subst this
              rw [recSlice_splice_eq hsl hbd, ← hsame_n]
              exact hf
          · intro i hge
            rw [recSlice_splice_gt hsl hbd (by omega), hdsame i (by omega)]
    · intro e h
      rw [fixupUpTo_succ] at h
      cases hu : fixupUpTo frs n data with
      | error e' =>
        rw [hu] at h
        simp only [Except.error.injEq] at h
        subst h
        obtain ⟨i, hi, he, hf⟩ := iherr e' hu
        exact ⟨i, by omega, he, hf⟩
      | ok d =>
        rw [hu] at h
        simp only [] at h
        rw [applyFixup_eq] at h
        obtain ⟨hdlen, hdfix, hdsame⟩ := ihok d hu
        have hsame_n : recSlice d frs n = recSlice data frs n := hdsame n (le_refl n)
        cases hf : fixup_record n (recSlice d frs n) with
        | error e' =>
          rw [hf] at h
          simp only [Except.error.injEq] at h
          subst h
          rw [hsame_n] at hf
          exact ⟨n, by omega, fixup_record_error hf, hf⟩
        | ok srec =>
          rw [hf] at h
          exact Except.noConfusion h
    · intro hall
      obtain ⟨d, hd⟩ := ihex fun i hi => hall i (by omega)
      obtain ⟨hdlen, hdfix, hdsame⟩ := ihok d hd
      obtain ⟨srec, hsrec⟩ := hall n (by omega)
      rw [← hdsame n (le_refl n)] at hsrec
      refine ⟨d.take (n * frs) ++ srec ++ d.drop (n * frs + frs), ?_⟩
      rw [fixupUpTo_succ, hd]
      simp only []
      rw [applyFixup_eq, hsrec]


/-- C6 (amended): the fixup stage of `Mft::new` applies `fixup_record`
to every record index in `[0, max_record)` with the strict policy: the
construction succeeds iff every record's fixup succeeds, any mismatch
aborts with `CorruptMftRecord`, and each fixed sector's trailing two
bytes - which had to equal the stored USN - are overwritten with the
corresponding USA entry. (A tail can therefore still equal the
pre-fixup USN exactly when its USA entry equals the USN; the code does
not require them to differ.) -/
theorem mftNewFixup_strict (data : List Nat) (frs : Nat) :
    (∀ res, mftNewFixup data frs = .ok res →
      res.length = data.length ∧
      ∀ i, i < data.length / frs →
        fixup_record i (recSlice data frs i) = .ok (recSlice res frs i)) ∧
    (∀ e, mftNewFixup data frs = .error e →
      ∃ i, i < data.length / frs ∧ e = .CorruptMftRecord i ∧
        fixup_record i (recSlice data frs i) = .error e) ∧
    ((∀ i, i < data.length / frs → ∃ s, fixup_record i (recSlice data frs i) = .ok s) →
      ∃ res, mftNewFixup data frs = .ok res) ∧
    (∀ n rec s, fixup_record n rec = .ok s →
      readLE rec 4 2 + 2 + 2 * usaIterations rec ≤ SECTOR_SIZE - 2 →
      ∀ i, i < usaIterations rec → SECTOR_SIZE - 2 + 512 * i + 2 ≤ rec.length →
        (byteAt rec (SECTOR_SIZE - 2 + 512 * i) = byteAt rec (readLE rec 4 2) ∧
          byteAt rec (SECTOR_SIZE - 2 + 512 * i + 1) = byteAt rec (readLE rec 4 2 + 1)) ∧
        (byteAt s (SECTOR_SIZE - 2 + 512 * i) = byteAt rec (readLE rec 4 2 + 2 + 2 * i) ∧
          byteAt s (SECTOR_SIZE - 2 + 512 * i + 1) =
            byteAt rec (readLE rec 4 2 + 2 + 2 * i + 1))) := by
  obtain ⟨hok, herr, hex⟩ :=
    fixupUpTo_spec frs (data.length / frs) data (Nat.div_mul_le_self _ _)
  refine ⟨fun res h => ⟨(hok res h).1, (hok res h).2.1⟩, herr, hex, ?_⟩
  intro n rec s h hdisj i hi hsec
  simp only [SECTOR_SIZE] at hdisj hsec ⊢
  simp only [fixup_record] at h
  split_ifs at h with g1 g2 g3
  have := fixupLoop_spec n (byteAt rec (readLE rec 4 2)) (byteAt rec (readLE rec 4 2 + 1))
    ((readLE rec 4 2 + readLE rec 6 2 * 2 - (readLE rec 4 2 + 2) + 1) / 2) rec
    (readLE rec 4 2 + 2) (512 - 2) s h ?_
  · obtain ⟨hbelow, hiter⟩ := this
    exact hiter i hi hsec
  · simp only [usaIterations] at hdisj
    omega

set_option maxRecDepth 8000 in
/-- C6 witness: the strict-fixup conclusion at the concrete one-record
MFT image `exFixRecord` (record size 512). -/
theorem mftNewFixup_strict_witness :
    exFixRecord.length = exFixRecord.length ∧
    ∀ i, i < exFixRecord.length / 512 →
      fixup_record i (recSlice exFixRecord 512 i) = .ok (recSlice exFixRecord 512 i) :=
  (mftNewFixup_strict exFixRecord 512).1 exFixRecord (by rfl)

set_option maxRecDepth 8000 in
/-- C6 counterexample: `exFixRecord` is a valid record whose USA entry
equals its USN; construction succeeds and leaves the record unchanged,
so after the fixup the sector tail still holds the pre-fixup USN value,
contradicting the claim's final clause. -/
theorem mftNewFixup_tail_counterexample :
    NtfsFile.is_valid exFixRecord = true ∧
    mftNewFixup exFixRecord 512 = .ok exFixRecord ∧
    byteAt exFixRecord (SECTOR_SIZE - 2) = byteAt exFixRecord (readLE exFixRecord 4 2) ∧
    byteAt exFixRecord (SECTOR_SIZE - 1) = byteAt exFixRecord (readLE exFixRecord 4 2 + 1) :=
  ⟨rfl, by rfl, rfl, rfl⟩


/-! ## Helper lemmas for the journal -/

theorem getLast?_cons_or {α : Type} (a : α) (xs : List α) :
    (a :: xs).getLast? = xs.getLast?.or (some a) := by
  cases xs with
  | nil => rfl
  | cons b t =>
    rw [List.getLast?_cons_cons]
    cases h : (b :: t).getLast? with
    | none =>
      exact absurd (List.getLast?_eq_none.mp h) (by simp)
    | some c => rfl

theorem find?_reverse {α : Type} (p : α → Bool) (l : List α) :
    l.reverse.find? p = (l.filter p).getLast? := by
  induction l with
  | nil => rfl
  | cons a l ih =>
    rw [List.reverse_cons, List.find?_append, ih, List.filter_cons]
    by_cases hp : p a
    · rw [if_pos hp, getLast?_cons_or]
      congr 1
      simp only [List.find?, hp]
    · rw [if_neg hp]
      have : List.find? p [a] = none := by
        simp only [List.find?]
        rw [Bool.not_eq_true] at hp
        rw [hp]
      rw [this, Option.or_none]

/-- C3 (amended): `match_rename` returns a path only when the record's
reason includes `RENAME_NEW_NAME`, and then it is the path of the
newest (most recently appended) history entry whose `file_id` matches
and whose reason includes `RENAME_OLD_NAME` - irrespective of the USN
values, which the code never compares. -/
theorem match_rename_eq (j : Journal) (r : UsnRecord) :
    j.match_rename r =
      if r.reason &&& USN_REASON_RENAME_NEW_NAME ≠ 0 then
        ((j.history.filter fun old =>
            old.file_id == r.file_id &&
              old.reason &&& USN_REASON_RENAME_OLD_NAME != 0).getLast?).map (·.path)
      else none := by
  unfold Journal.match_rename
  by_cases h : r.reason &&& USN_REASON_RENAME_NEW_NAME ≠ 0
  · rw [if_pos h, if_pos h, find?_reverse]
  · rw [if_neg h, if_neg h]

/-- C3 counterexample: the history holds a single `RENAME_OLD_NAME`
entry with USN 100; for a `RENAME_NEW_NAME` record with the same file
id and USN 50 there is no history entry with a strictly smaller USN,
yet `match_rename` still returns that entry's path. -/
theorem match_rename_counterexample :
    Journal.match_rename exJournal exNewRecord = some [[111]] ∧
    exOldRecord ∈ exJournal.history ∧
    (∀ e ∈ exJournal.history, ¬ e.usn < exNewRecord.usn) :=
  ⟨rfl, by decide, by decide⟩


/-- C8: a record is appended to the rename history iff its reason
intersects `{RENAME_OLD_NAME, HARD_LINK_CHANGE, REPARSE_POINT_CHANGE}`,
the front (oldest) entry being dropped first when the bounded deque is
full; consequently, over any sequence of records processed from an
empty history with `max_history_size > 0`, the history never exceeds
`max_history_size` entries. -/
theorem handle_history_record_spec :
    (∀ (j : Journal) (r : UsnRecord),
      (r.reason &&& historyMask ≠ 0 →
        (j.handle_history_record r).history =
          (if 0 < j.max_history_size ∧ j.max_history_size ≤ j.history.length then
            j.history.drop 1 else j.history) ++ [r]) ∧
      (r.reason &&& historyMask = 0 → (j.handle_history_record r).history = j.history)) ∧
    (∀ (max : Nat) (rs : List UsnRecord), 0 < max →
      ((rs.foldl Journal.handle_history_record
        { history := [], max_history_size := max }).history).length ≤ max) := by
  have hstep_max : ∀ (j : Journal) (r : UsnRecord),
      (j.handle_history_record r).max_history_size = j.max_history_size := by
    intro j r
    simp only [Journal.handle_history_record]
    split_ifs <;> rfl
  have hstep_len : ∀ (j : Journal) (r : UsnRecord), 0 < j.max_history_size →
      j.history.length ≤ j.max_history_size →
      (j.handle_history_record r).history.length ≤ j.max_history_size := by
    intro j r hpos hj
    simp only [Journal.handle_history_record]
    split_ifs with h1 h2
    · simp only [List.length_append, List.length_drop, List.length_cons, List.length_nil]
      omega
    · simp only [List.length_append, List.length_cons, List.length_nil]
      omega
    · exact hj
  have key : ∀ (rs : List UsnRecord) (j : Journal), 0 < j.max_history_size →
      j.history.length ≤ j.max_history_size →
      ((rs.foldl Journal.handle_history_record j).history).length ≤ j.max_history_size := by
    intro rs
    induction rs with
    | nil =>
      intro j _ hj
      exact hj
    | cons r rs ih =>
      intro j hpos hj
      have h1 := ih (j.handle_history_record r)
        (by rw [hstep_max]; exact hpos)
        (by rw [hstep_max]; exact hstep_len j r hpos hj)
      rw [hstep_max] at h1
      exact h1
  refine ⟨?_, ?_⟩
  · intro j r
    constructor
    · intro h
      simp only [Journal.handle_history_record]
      rw [if_pos h]
    · intro h
      simp only [Journal.handle_history_record]
      rw [if_neg fun hc => hc h]
  · intro max rs hmax
    exact key rs { history := [], max_history_size := max } hmax (by simp)

/-- C8 witness: two history-eligible records folded into a journal
bounded at one entry leave exactly one entry. -/
theorem handle_history_record_spec_witness :
    (exOldRecord.reason &&& historyMask ≠ 0 ∧
      (Journal.handle_history_record { history := [], max_history_size := 1 }
        exOldRecord).history =
        (if 0 < (1 : Nat) ∧ (1 : Nat) ≤ ([] : List UsnRecord).length then
          ([] : List UsnRecord).drop 1 else []) ++ [exOldRecord]) ∧
    (0 < (1 : Nat) ∧
      (([exOldRecord, exOldRecord].foldl Journal.handle_history_record
        { history := [], max_history_size := 1 }).history).length ≤ 1) :=
  ⟨⟨by decide,
      (handle_history_record_spec.1 { history := [], max_history_size := 1 }
        exOldRecord).1 (by decide)⟩,
    ⟨by decide, handle_history_record_spec.2 1 [exOldRecord, exOldRecord] (by decide)⟩⟩


/-! ## Helper lemmas for the path caches -/

theorem hashMap_get_insert_self (c : HashMapCache) (n : Nat) (p : Path) :
    (c.insert n p).get n = some p := by
  simp only [HashMapCache.get, HashMapCache.insert]
  rw [List.find?_cons_of_pos _ (by simp)]
  rfl

theorem hashMap_get_insert_ne (c : HashMapCache) {m n : Nat} (p : Path) (h : m ≠ n) :
    (c.insert m p).get n = c.get n := by
  simp only [HashMapCache.get, HashMapCache.insert]
  rw [List.find?_cons_of_neg _ (by simp [h])]

theorem vec_insert_length (c : VecCache) (n : Nat) (p : Path) :
    (c.insert n p).vec.length = max c.vec.length (n + 1) := by
  simp only [VecCache.insert]
  split_ifs with h
  · simp only [List.length_set, List.length_append, List.length_replicate]
    omega
  · simp only [List.length_set]
    omega

theorem vec_get_insert_self (c : VecCache) (n : Nat) (p : Path) :
    (c.insert n p).get n = some p := by
  have hlen : (c.insert n p).vec.length = max c.vec.length (n + 1) :=
    vec_insert_length c n p
  simp only [VecCache.get]
  rw [if_pos (by omega)]
  simp only [VecCache.insert] at hlen ⊢
  split_ifs with h
  · have hn : n < (c.vec ++ List.replicate (n + 1 - c.vec.length) []).length := by
      simp only [List.length_append, List.length_replicate]
      omega
    rw [List.getD_eq_getElem?_getD, List.getElem?_set, if_pos rfl, if_pos hn]
    rfl
  · have hn : n < c.vec.length := by omega
    rw [List.getD_eq_getElem?_getD, List.getElem?_set, if_pos rfl, if_pos hn]
    rfl

theorem vec_get_insert_ne_of_some (c : VecCache) {m n : Nat} (q p : Path)
    (h : m ≠ n) (hs : c.get n = some p) : (c.insert m q).get n = some p := by
  simp only [VecCache.get] at hs
  by_cases hlt : c.vec.length > n
  · rw [if_pos hlt] at hs
    have hlen : (c.insert m q).vec.length = max c.vec.length (m + 1) :=
      vec_insert_length c m q
    simp only [VecCache.get]
    rw [if_pos (by omega)]
    simp only [VecCache.insert]
    split_ifs with hpad
    · rw [List.getD_eq_getElem?_getD, List.getElem?_set]
      rw [if_neg h, List.getElem?_append, if_pos hlt, ← List.getD_eq_getElem?_getD]
      exact hs
    · rw [List.getD_eq_getElem?_getD, List.getElem?_set, if_neg h,
        ← List.getD_eq_getElem?_getD]
      exact hs
  · rw [if_neg hlt] at hs
    exact absurd hs (by simp)

theorem vec_get_insert_ne_phantom (c : VecCache) {m n : Nat} (q : Path)
    (h : m ≠ n) (hs : c.get n = none ∨ c.get n = some []) :
    (c.insert m q).get n = none ∨ (c.insert m q).get n = some [] := by
  rcases hs with hs | hs
  · simp only [VecCache.get] at hs
    by_cases hlt : c.vec.length > n
    · rw [if_pos hlt] at hs
      exact absurd hs (by simp)
    · have hn : c.vec.length ≤ n := by omega
      have hlen : (c.insert m q).vec.length = max c.vec.length (m + 1) :=
        vec_insert_length c m q
      by_cases hn2 : n < m + 1
      · right
        simp only [VecCache.get]
        rw [if_pos (by omega)]
        simp only [VecCache.insert]
        rw [if_pos (by omega)]
        rw [List.getD_eq_getElem?_getD, List.getElem?_set, if_neg h,
          List.getElem?_append, if_neg (by omega), List.getElem?_replicate,
          if_pos (by omega)]
        rfl
      · left
        simp only [VecCache.get]
        rw [if_neg (by omega)]
  · exact Or.inr (vec_get_insert_ne_of_some c q [] h hs)

/-- C9 (amended): both cache implementations return a cached path until
it is overwritten: after `insert(n, p)` and any further inserts at
other keys, `lookup(n)` is `p`. A never-inserted `n` yields absent from
`HashMapCache`; from `VecCache` it yields absent or the *empty* path,
because `insert` pads every slot below the largest inserted index with
`PathBuf::new()`. -/
theorem cache_contract :
    (∀ (c : HashMapCache) (n : Nat) (p : Path) (ops : List (Nat × Path)),
      (∀ op ∈ ops, op.1 ≠ n) →
      (HashMapCache.applyInserts (c.insert n p) ops).get n = some p) ∧
    (∀ (c : VecCache) (n : Nat) (p : Path) (ops : List (Nat × Path)),
      (∀ op ∈ ops, op.1 ≠ n) →
      (VecCache.applyInserts (c.insert n p) ops).get n = some p) ∧
    (∀ (n : Nat) (ops : List (Nat × Path)), (∀ op ∈ ops, op.1 ≠ n) →
      (HashMapCache.applyInserts ⟨[]⟩ ops).get n = none) ∧
    (∀ (n : Nat) (ops : List (Nat × Path)), (∀ op ∈ ops, op.1 ≠ n) →
      (VecCache.applyInserts ⟨[]⟩ ops).get n = none ∨
      (VecCache.applyInserts ⟨[]⟩ ops).get n = some []) := by
  have hm : ∀ (ops : List (Nat × Path)) (c : HashMapCache) (n : Nat) (p : Path),
      c.get n = some p → (∀ op ∈ ops, op.1 ≠ n) →
      (HashMapCache.applyInserts c ops).get n = some p := by
    intro ops
    induction ops with
    | nil => intro c n p hc _; exact hc
    | cons op ops ih =>
      intro c n p hc hops
      exact ih _ n p
        (by rw [hashMap_get_insert_ne c op.2 (hops op (by simp))]; exact hc)
        fun o ho => hops o (by simp [ho])
  have vm : ∀ (ops : List (Nat × Path)) (c : VecCache) (n : Nat) (p : Path),
      c.get n = some p → (∀ op ∈ ops, op.1 ≠ n) →
      (VecCache.applyInserts c ops).get n = some p := by
    intro ops
    induction ops with
    | nil => intro c n p hc _; exact hc
    | cons op ops ih =>
      intro c n p hc hops
      exact ih _ n p
        (vec_get_insert_ne_of_some c op.2 p (hops op (by simp)) hc)
        fun o ho => hops o (by simp [ho])
  have hm0 : ∀ (ops : List (Nat × Path)) (c : HashMapCache) (n : Nat),
      c.get n = none → (∀ op ∈ ops, op.1 ≠ n) →
      (HashMapCache.applyInserts c ops).get n = none := by
    intro ops
    induction ops with
    | nil => intro c n hc _; exact hc
    | cons op ops ih =>
      intro c n hc hops
      exact ih _ n
        (by rw [hashMap_get_insert_ne c op.2 (hops op (by simp))]; exact hc)
        fun o ho => hops o (by simp [ho])
  have vm0 : ∀ (ops : List (Nat × Path)) (c : VecCache) (n : Nat),
      (c.get n = none ∨ c.get n = some []) → (∀ op ∈ ops, op.1 ≠ n) →
      (VecCache.applyInserts c ops).get n = none ∨
        (VecCache.applyInserts c ops).get n = some [] := by
    intro ops
    induction ops with
    | nil => intro c n hc _; exact hc
    | cons op ops ih =>
      intro c n hc hops
      exact ih _ n
        (vec_get_insert_ne_phantom c op.2 (hops op (by simp)) hc)
        fun o ho => hops o (by simp [ho])
  exact ⟨fun c n p ops hops => hm ops _ n p (hashMap_get_insert_self c n p) hops,
    fun c n p ops hops => vm ops _ n p (vec_get_insert_self c n p) hops,
    fun n ops hops => hm0 ops ⟨[]⟩ n rfl hops,
    fun n ops hops => vm0 ops ⟨[]⟩ n (Or.inl rfl) hops⟩

/-- C9 witness: both caches at concrete inserts. -/
theorem cache_contract_witness :
    ((∀ op ∈ [((1 : Nat), ([[66]] : Path))], op.1 ≠ 0) ∧
      (HashMapCache.applyInserts (HashMapCache.insert ⟨[]⟩ 0 [[65]])
        [(1, [[66]])]).get 0 = some [[65]] ∧
      (VecCache.applyInserts (VecCache.insert ⟨[]⟩ 0 [[65]])
        [(1, [[66]])]).get 0 = some [[65]]) ∧
    ((HashMapCache.applyInserts ⟨[]⟩ [((1 : Nat), ([[66]] : Path))]).get 0 = none ∧
      ((VecCache.applyInserts ⟨[]⟩ [((1 : Nat), ([[66]] : Path))]).get 0 = none ∨
        (VecCache.applyInserts ⟨[]⟩ [((1 : Nat), ([[66]] : Path))]).get 0 = some [])) :=
  ⟨⟨by decide,
      cache_contract.1 ⟨[]⟩ 0 [[65]] [(1, [[66]])] (by decide),
      cache_contract.2.1 ⟨[]⟩ 0 [[65]] [(1, [[66]])] (by decide)⟩,
    ⟨cache_contract.2.2.1 0 [(1, [[66]])] (by decide),
      cache_contract.2.2.2 0 [(1, [[66]])] (by decide)⟩⟩

/-- C9 counterexample: after inserting only at index 1 into an empty
`VecCache`, index 0 - never inserted - does not read back absent: the
dense resize padded it with the empty path. -/
theorem vec_cache_phantom_counterexample :
    (VecCache.insert ⟨[]⟩ 1 [[65]]).get 0 = some [] ∧
    (some ([] : Path) ≠ (none : Option Path)) ∧ (0 : Nat) ≠ 1 :=
  ⟨rfl, by decide, by decide⟩


/-! ## Helper lemmas for path resolution on the cyclic image -/

set_option maxRecDepth 10000 in
theorem exMftCycle_get_record :
    Mft.get_record exMftCycle 24 = some ⟨24, exRecord⟩ := by rfl

set_option maxRecDepth 10000 in
theorem exMftCycle_best_name :
    NtfsFile.get_best_file_name ⟨24, exRecord⟩ exMftCycle = some exName := by rfl

theorem computePathLoop_succ (mft : Mft) (fuel next_parent : Nat)
    (components : List (Nat × Path)) :
    computePathLoop mft (fuel + 1) next_parent components =
      (if next_parent = ROOT_RECORD then .broke components
      else
        match mft.get_record next_parent with
        | none => .failed
        | some cur_file =>
          match cur_file.get_best_file_name mft with
          | none => .failed
          | some cur_name_att =>
            computePathLoop mft fuel cur_name_att.parent
              (components ++ [(cur_file.number, [cur_name_att.name])])) := rfl

theorem computePathCacheLoop_succ (mft : Mft) (cacheGet : Nat → Option Path)
    (fuel next_parent : Nat) (components : List (Nat × Path)) :
    computePathCacheLoop mft cacheGet (fuel + 1) next_parent components =
      (if next_parent = ROOT_RECORD then .broke components none
      else
        match cacheGet next_parent with
        | some p => .broke components (some p)
        | none =>
          match mft.get_record next_parent with
          | none => .failed
          | some cur_file =>
            match cur_file.get_best_file_name mft with
            | none => .failed
            | some cur_name_att =>
              computePathCacheLoop mft cacheGet fuel cur_name_att.parent
                (components ++ [(cur_file.number, [cur_name_att.name])])) := rfl

theorem computePathLoop_cycle (fuel : Nat) :
    ∀ comps, computePathLoop exMftCycle fuel 24 comps = .outOfFuel := by
  induction fuel with
  | zero => intro comps; rfl
  | succ fuel ih =>
    intro comps
    rw [computePathLoop_succ, if_neg (by decide : ¬(24 = ROOT_RECORD)),
      exMftCycle_get_record]
    simp only []
    rw [exMftCycle_best_name]
    simp only []
    exact ih _

theorem computePathCacheLoop_cycle (fuel : Nat) :
    ∀ comps, computePathCacheLoop exMftCycle (VecCache.get ⟨[]⟩) fuel 24 comps = .outOfFuel := by
  induction fuel with
  | zero => intro comps; rfl
  | succ fuel ih =>
    intro comps
    have hcg : VecCache.get ⟨[]⟩ 24 = none := rfl
    rw [computePathCacheLoop_succ, if_neg (by decide : ¬(24 = ROOT_RECORD)), hcg]
    simp only []
    rw [exMftCycle_get_record]
    simp only []
    rw [exMftCycle_best_name]
    simp only []
    exact ih _

/-- C4: the specification demands that pathological ancestor chains
terminate, failing closed with an empty path; the code has no depth
bound or visited set. On `exMftCycle` - a valid record 24 whose best
file name's parent reference is 24 itself, never reaching the root
record 5 - both the plain and the cache-assisted parent walks of
`FileInfo` run forever: for every fuel the loop is still running, and
path resolution never produces a value. -/
theorem compute_path_cycle_diverges :
    Mft.get_record exMftCycle 24 = some ⟨24, exRecord⟩ ∧
    (∀ fuel comps, computePathLoop exMftCycle fuel 24 comps = .outOfFuel) ∧
    (∀ fuel comps,
      computePathCacheLoop exMftCycle (VecCache.get ⟨[]⟩) fuel 24 comps = .outOfFuel) ∧
    (∀ fuel, computePathF exMftCycle ⟨24, exRecord⟩ fuel = none) ∧
    (∀ fuel, computePathWithCacheF exMftCycle ⟨24, exRecord⟩ ⟨[]⟩ fuel = none) := by
  refine ⟨exMftCycle_get_record, computePathLoop_cycle, computePathCacheLoop_cycle, ?_, ?_⟩
  · intro fuel
    simp only [computePathF]
    rw [exMftCycle_best_name]
    simp only []
    rw [show exName.parent = 24 from rfl, computePathLoop_cycle fuel []]
  · intro fuel
    simp only [computePathWithCacheF]
    rw [exMftCycle_best_name]
    simp only []
    rw [show exName.parent = 24 from rfl, computePathCacheLoop_cycle fuel []]

end NtfsReader
